import Mathlib

/-!
# INIparser: a shallow embedding of `src/INIparser.h`

A `char` is modelled as a `Char`, a `std::string` as a `List Char`, a
`std::unordered_map` as an association list with unique keys, the `std::fstream` as the
list of characters still to be read together with its `good()` bit, and a thrown
exception as the `Except.error` component of a result that still carries the members as
they are at the throw.
-/

namespace INI

/-- A `std::string`. -/
abbrev Str := List Char

/-- The enum `TokenType` (lines 38-43). -/
inductive TokenType
  | SECTION
  | KEY
  | VAL
  deriving DecidableEq, Repr

/-- The four messages carried by the exception class `InvalidToken`. -/
inductive Reason
  | keyEmpty
  | bracketNotFirst
  | unexpectedClose
  | sectionEmpty
  deriving DecidableEq, Repr

/-- The exceptions thrown by the parser: `InvalidToken(msg)` and the four
`std::runtime_error`s "Uncomplete line", "Failed to open file",
"Section not found" and "Key not found". -/
inductive Error
  | InvalidToken (reason : Reason)
  | UncompleteLine
  | FailedToOpen
  | SectionNotFound
  | KeyNotFound
  deriving DecidableEq, Repr

/-- Equality of results is decidable, so that runs can be compared by evaluation. -/
instance instDecidableEqExcept {ε α : Type} [DecidableEq ε] [DecidableEq α] :
    DecidableEq (Except ε α)
  | Except.error a, Except.error b =>
    if h : a = b then isTrue (congrArg Except.error h)
    else isFalse (fun h' => h (Except.error.inj h'))
  | Except.ok a, Except.ok b =>
    if h : a = b then isTrue (congrArg Except.ok h)
    else isFalse (fun h' => h (Except.ok.inj h'))
  | Except.error _, Except.ok _ => isFalse (fun h => Except.noConfusion h)
  | Except.ok _, Except.error _ => isFalse (fun h => Except.noConfusion h)

/-- The struct `ReadState` (lines 45-54): `sec`, `key`, `val` are `current[0]`,
`current[1]`, `current[2]`. -/
structure ReadState where
  current_token_type : TokenType
  sec : Str
  key : Str
  val : Str
  deriving DecidableEq, Repr

/-- The value `ReadState()`: the enum is zero-initialised, the array takes its
default member initialiser. -/
def ReadState.init : ReadState :=
  { current_token_type := TokenType.SECTION, sec := [' '], key := [], val := [] }

/-- The statement `current[int(current_token_type)] += c`. -/
def ReadState.append (st : ReadState) (c : Char) : ReadState :=
  match st.current_token_type with
  | TokenType.SECTION => { st with sec := st.sec ++ [c] }
  | TokenType.KEY => { st with key := st.key ++ [c] }
  | TokenType.VAL => { st with val := st.val ++ [c] }

/-- The input stream: the characters not yet extracted and the `good()` bit. -/
structure fstream where
  rest : List Char
  good : Bool
  deriving DecidableEq, Repr

/-- The call `getline(file, _)` on a good stream: extracts up to and including the next
newline; reaching end of input sets `eofbit`. -/
def getline : List Char → fstream
  | [] => { rest := [], good := false }
  | c :: cs => if c = '\n' then { rest := cs, good := true } else getline cs

/-- What one call of `readLine` leaves behind: the returned flag or the thrown
exception, the member `m_read_state`, and the stream. -/
abbrev LineResult := Except Error Bool × ReadState × fstream

/-- Lines 170-177 of `readLine`: the check made once the character loop has ended. -/
def lineEnd (read : Bool) (st : ReadState) (file : fstream) : LineResult :=
  if read = true ∧ st.current_token_type ≠ TokenType.SECTION ∧ st.key = [] ∧ st.val = [] then
    (Except.error Error.UncompleteLine, st, file)
  else
    (Except.ok read, st, file)

/-- The character loop of `readLine` (lines 112-168), by recursion on the characters
still in the stream. The locals `escape`, `read`, `first` are arguments. -/
def readLoop (st : ReadState) (escape read first : Bool) : List Char → LineResult
  | [] => lineEnd read st { rest := [], good := false }
  | c :: cs =>
    if c = '\n' then lineEnd read st { rest := cs, good := true }
    else if c = '\t' ∨ c = '\x0c' ∨ c = '\r' ∨ c = '\x0b' then
      readLoop st escape read first cs
    else if st.current_token_type ≠ TokenType.SECTION ∧ c = ' ' then
      readLoop st escape read first cs
    else if c = ';' ∧ escape = false then
      (Except.ok (decide (st.key ≠ []) && decide (st.val ≠ [])), st, getline cs)
    else if c = '=' ∧ escape = false then
      if st.key = [] then
        (Except.error (Error.InvalidToken Reason.keyEmpty), st, { rest := cs, good := true })
      else
        readLoop { st with current_token_type := TokenType.VAL } escape true first cs
    else if c = '[' ∧ escape = false then
      if first = false then
        (Except.error (Error.InvalidToken Reason.bracketNotFirst), st,
          { rest := cs, good := true })
      else
        readLoop { st with sec := [], current_token_type := TokenType.SECTION }
          escape true first cs
    else if c = ']' ∧ escape = false then
      if st.current_token_type ≠ TokenType.SECTION then
        (Except.error (Error.InvalidToken Reason.unexpectedClose), st,
          { rest := cs, good := true })
      else if st.sec = [] then
        (Except.error (Error.InvalidToken Reason.sectionEmpty), st,
          { rest := cs, good := true })
      else
        (Except.ok false, st, { rest := cs, good := true })
    else if c = '\\' then
      if escape = true then readLoop (st.append '\\') false true false cs
      else readLoop st true true false cs
    else
      readLoop (st.append c) false true false cs

/-- The function `readLine` (lines 101-178), called on a good stream. -/
def readLine (file : fstream) (st : ReadState) : LineResult :=
  readLoop { st with current_token_type := TokenType.KEY } false false true file.rest

/-- A `std::unordered_map<std::string, V>`. -/
abbrev Map (V : Type) := List (Str × V)

/-- The member function `find`: the mapped value when the key is present. -/
def Map.find {V : Type} : Map V → Str → Option V
  | [], _ => none
  | (k, v) :: m, a => if k = a then some v else Map.find m a

/-- The statement `m[a] = v`: overwrite the mapped value of a present key, insert
an absent one. -/
def Map.assign {V : Type} : Map V → Str → V → Map V
  | [], a, v => [(a, v)]
  | (k, w) :: m, a, v => if k = a then (k, v) :: m else (k, w) :: Map.assign m a v

/-- The typedef `Section`. -/
abbrev Section := Map Str

/-- The class `INIparser`: its two data members. -/
structure INIparser where
  m_sections : Map Section
  m_read_state : ReadState
  deriving DecidableEq, Repr

/-- What a call of `load` leaves behind: whether it returned or threw, and the
members of the parser at that moment. -/
structure LoadResult where
  outcome : Except Error Unit
  parser : INIparser
  deriving DecidableEq, Repr

/-- Line 91: `m_sections[sec][key] = val`; the first `operator[]` inserts an empty
section when there is none. -/
def store (m : Map Section) (sec key val : Str) : Map Section :=
  Map.assign m sec (Map.assign ((Map.find m sec).getD []) key val)

/-- The loop of `load` (lines 86-98). Each iteration reads at least one character or
clears `good()`, so `fuel` iterations suffice when `fuel` exceeds the length of the
stream; `none` means the fuel ran out. An exception ends the loop with the members as
they are at the throw. -/
def loadLoop : Nat → fstream → INIparser → Option LoadResult
  | fuel, file, p =>
    if file.good = false then some { outcome := Except.ok (), parser := p }
    else
      match fuel with
      | 0 => none
      | fuel + 1 =>
        match readLine file p.m_read_state with
        | (Except.error e, st, _) => some { outcome := Except.error e, parser := { p with m_read_state := st } }
        | (Except.ok false, st, file') => loadLoop fuel file' { p with m_read_state := st }
        | (Except.ok true, st, file') =>
          loadLoop fuel file'
            { m_sections :=
                if st.current_token_type ≠ TokenType.SECTION then
                  store p.m_sections st.sec st.key st.val
                else p.m_sections
              m_read_state := { st with key := [], val := [], current_token_type := TokenType.KEY } }

/-- The members after lines 83-84: `m_sections.clear()` and
`m_read_state = ReadState()`. -/
def fresh : INIparser :=
  { m_sections := [], m_read_state := ReadState.init }

/-- The function `load` (lines 77-99). The argument is the content of the file at
`file_path`, `none` when it cannot be opened. -/
def load (p : INIparser) (content : Option (List Char)) :
    Option LoadResult :=
  match content with
  | none => some { outcome := Except.error Error.FailedToOpen, parser := p }
  | some cs =>
    loadLoop (cs.length + 2) { rest := cs, good := true } fresh

/-- The function `getVal` (lines 180-191). -/
def getVal (p : INIparser) (sec key : Str) : Except Error Str :=
  match Map.find p.m_sections sec with
  | none => Except.error Error.SectionNotFound
  | some s =>
    match Map.find s key with
    | none => Except.error Error.KeyNotFound
    | some v => Except.ok v

/-- The overload `get(key)` (lines 69-71). -/
def get (p : INIparser) (key : Str) : Except Error Str :=
  getVal p [' '] key

/-- The overload `get(section, key)` (lines 73-75). -/
def get2 (p : INIparser) (sec key : Str) : Except Error Str :=
  getVal p sec key

/-! ## Vocabulary of the specification -/

/-- The four control characters that `readLine` always discards (lines 113-120). -/
def isControl (c : Char) : Prop :=
  c = '\t' ∨ c = '\x0c' ∨ c = '\r' ∨ c = '\x0b'

/-- The five characters that have a meaning of their own when not escaped. -/
def isSpecial (c : Char) : Prop :=
  c = '\\' ∨ c = ';' ∨ c = '=' ∨ c = '[' ∨ c = ']'

/-- A character allowed in a section name: no control character and no newline. -/
def nameChar (c : Char) : Prop :=
  ¬ isControl c ∧ c ≠ '\n'

/-- A character allowed in a key or value: as in a name, and no space. -/
def wordChar (c : Char) : Prop :=
  nameChar c ∧ c ≠ ' '

/-- A character that is discarded outside brackets: a space or a control character. -/
def isBlank (c : Char) : Prop :=
  c = ' ' ∨ isControl c

/-- The text `esc t`: a backslash before every special character of `t`. -/
def esc : Str → Str
  | [] => []
  | c :: cs =>
    if c = '\\' ∨ c = ';' ∨ c = '=' ∨ c = '[' ∨ c = ']' then '\\' :: c :: esc cs
    else c :: esc cs

/-- What follows a line: end of input, or a newline and the rest of the document. -/
def isEol (r : List Char) : Prop :=
  r = [] ∨ ∃ r', r = '\n' :: r'

/-- The stream after the end of a line has been read: at end of input the failed
extraction clears `good()`, otherwise the newline is consumed. -/
def eol : List Char → fstream
  | [] => { rest := [], good := false }
  | _ :: r => { rest := r, good := true }

/-- The number of iterations of the loop of `load` that a stream can still need. -/
def fstream.measure (f : fstream) : Nat :=
  if f.good = true then f.rest.length + 1 else 0

/-- The value of `key` in section `sec` of a document, when both exist. -/
def lookup (m : Map Section) (sec key : Str) : Option Str :=
  (Map.find m sec).bind (fun s => Map.find s key)

/-- The token buffer after the characters of `t` have been appended one by one. -/
def ReadState.appendAll (st : ReadState) (t : Str) : ReadState :=
  t.foldl ReadState.append st

instance (c : Char) : Decidable (isControl c) := by unfold isControl; infer_instance

instance (c : Char) : Decidable (isSpecial c) := by unfold isSpecial; infer_instance

instance (c : Char) : Decidable (nameChar c) := by unfold nameChar; infer_instance

instance (c : Char) : Decidable (wordChar c) := by unfold wordChar; infer_instance

instance (c : Char) : Decidable (isBlank c) := by unfold isBlank; infer_instance

instance (r : List Char) : Decidable (isEol r) :=
  match r with
  | [] => isTrue (Or.inl rfl)
  | c :: r' =>
    if h : c = '\n' then isTrue (Or.inr ⟨r', by rw [h]⟩)
    else isFalse (by
      rintro (h' | ⟨r'', h'⟩)
      · exact List.cons_ne_nil _ _ h'
      · exact h (List.cons.inj h').1)

/-- A line of a plain document: a header `[name]` or a line `key = val`. -/
inductive PLine
  | header (name : Str)
  | kv (key val : Str)
  deriving DecidableEq, Repr

/-- The text of a plain line. -/
def PLine.render : PLine → List Char
  | PLine.header n => '[' :: (n ++ [']'])
  | PLine.kv k v => k ++ ' ' :: '=' :: ' ' :: v

/-- The plain lines: a header name is a non-empty string of characters other than tab,
CR, FF, VT, newline and the five special characters; a key and a value are non-empty
strings of such characters other than the space. -/
def PLine.valid : PLine → Prop
  | PLine.header n => n ≠ [] ∧ ∀ c ∈ n, nameChar c ∧ ¬ isSpecial c
  | PLine.kv k v =>
    k ≠ [] ∧ v ≠ [] ∧ (∀ c ∈ k, wordChar c ∧ ¬ isSpecial c) ∧
      (∀ c ∈ v, wordChar c ∧ ¬ isSpecial c)

instance (l : PLine) : Decidable l.valid := by
  cases l <;> unfold PLine.valid <;> infer_instance

/-- The text of a plain document: its lines separated by newlines, the last one
followed by a newline when `trailing` is set. -/
def document : List PLine → Bool → List Char
  | [], _ => []
  | [l], trailing => l.render ++ (if trailing = true then ['\n'] else [])
  | l :: l' :: ls, trailing => l.render ++ '\n' :: document (l' :: ls) trailing

/-- The value of the last line `key = v` of `ls` that stands under the header `tgt`,
where `cur` is the header the first line stands under; `none` is the place before any
header. -/
def lastDecl : List PLine → Option Str → Option Str → Str → Option Str
  | [], _, _, _ => none
  | PLine.header n :: ls, _, tgt, key => lastDecl ls (some n) tgt key
  | PLine.kv k v :: ls, cur, tgt, key =>
    match lastDecl ls cur tgt key with
    | some w => some w
    | none => if cur = tgt ∧ k = key then some v else none

/-- Whether some line `k = v` of `ls` stands under the header `tgt`. -/
def declares : List PLine → Option Str → Option Str → Bool
  | [], _, _ => false
  | PLine.header n :: ls, _, tgt => declares ls (some n) tgt
  | PLine.kv _ _ :: ls, cur, tgt => decide (cur = tgt) || declares ls cur tgt

/-- The members after `load` has processed one plain line. -/
def applyLine (p : INIparser) : PLine → INIparser
  | PLine.header n =>
    { m_sections := p.m_sections,
      m_read_state := { current_token_type := TokenType.KEY, sec := n, key := [], val := [] } }
  | PLine.kv k v =>
    { m_sections := store p.m_sections p.m_read_state.sec k v,
      m_read_state :=
        { current_token_type := TokenType.KEY, sec := p.m_read_state.sec, key := [],
          val := [] } }

/-- The members after `load` has processed the plain lines `ls` and met the end of
input. -/
def applyLines (p : INIparser) : List PLine → INIparser
  | [] => { p with m_read_state := { p.m_read_state with current_token_type := TokenType.KEY } }
  | l :: ls => applyLines (applyLine p l) ls

/-- The four-line example document of the specification. -/
def exampleDocument : List Char :=
  "default_key = 1\n[server]\nhost = localhost ; comment\nport = 8080\n".toList

/-- The document that the example of the specification loads to. -/
def exampleSections : Map Section :=
  [(" ".toList, [("default_key".toList, "1".toList)]),
    ("server".toList, [("host".toList, "localhost".toList), ("port".toList, "8080".toList)])]

/-- A plain document in which the header `[ ]` follows a line of the default section. -/
def spaceHeaderLines : List PLine :=
  [PLine.kv ['k'] ['1'], PLine.header [' '], PLine.kv ['k'] ['2']]

/-- The example document without its comment, as plain lines. -/
def exampleLines : List PLine :=
  [PLine.kv "default_key".toList "1".toList, PLine.header "server".toList,
    PLine.kv "host".toList "localhost".toList, PLine.kv "port".toList "8080".toList]

/-- A plain document in which the header `[s]` appears twice, `[t]` in between. -/
def mergeLines : List PLine :=
  [PLine.kv ['g'] ['0']] ++ PLine.header ['s'] ::
    ([PLine.kv ['a'] ['1'], PLine.kv ['b'] ['2']] ++ PLine.header ['t'] ::
      ([PLine.kv ['a'] ['9']] ++ PLine.header ['s'] ::
        [PLine.kv ['b'] ['3'], PLine.kv ['c'] ['4']]))

/-- The text `cs` with every tab, carriage return, form feed and vertical tab deleted. -/
def stripControl : List Char → List Char
  | [] => []
  | c :: cs =>
    if c = '\t' ∨ c = '\x0c' ∨ c = '\r' ∨ c = '\x0b' then stripControl cs
    else c :: stripControl cs

/-- A stream with the control characters deleted from what is still to be read. -/
def fstream.strip (f : fstream) : fstream :=
  { rest := stripControl f.rest, good := f.good }

/-- The buffers are keyed: the value buffer is non-empty, or the target is the value,
only if the key buffer is non-empty. -/
def ReadState.keyed (st : ReadState) : Prop :=
  (st.val ≠ [] ∨ st.current_token_type = TokenType.VAL) → st.key ≠ []

/-- Every entry of the document has a non-empty key. -/
def keysNonEmpty (m : Map Section) : Prop :=
  ∀ e ∈ m, ∀ kv ∈ e.2, kv.1 ≠ []

/-- A value has been accumulated on the current line only after a character was read
and appended, with the target on the value. -/
def ReadState.valueRead (st : ReadState) (read first : Bool) : Prop :=
  st.val ≠ [] → first = false ∧ st.current_token_type = TokenType.VAL ∧ read = true

/-- A line boundary: the text before it is empty or ends with a newline. -/
def lineStart (D : List Char) : Prop :=
  D = [] ∨ ∃ D0, D = D0 ++ ['\n']

/-- What the loop of `readLine` does with one character: go on with new locals, end the
line at a newline, return at a comment, or leave by a `return` or a `throw`. -/
inductive Step
  | next (st : ReadState) (escape read first : Bool)
  | endLine
  | comment
  | stop (o : Except Error Bool)

/-- The body of the loop of `readLine` (lines 113-167) as a function of the character. -/
def loopStep (st : ReadState) (escape read first : Bool) (c : Char) : Step :=
  if c = '\n' then Step.endLine
  else if c = '\t' ∨ c = '\x0c' ∨ c = '\r' ∨ c = '\x0b' then Step.next st escape read first
  else if st.current_token_type ≠ TokenType.SECTION ∧ c = ' ' then
    Step.next st escape read first
  else if c = ';' ∧ escape = false then Step.comment
  else if c = '=' ∧ escape = false then
    if st.key = [] then Step.stop (Except.error (Error.InvalidToken Reason.keyEmpty))
    else Step.next { st with current_token_type := TokenType.VAL } escape true first
  else if c = '[' ∧ escape = false then
    if first = false then Step.stop (Except.error (Error.InvalidToken Reason.bracketNotFirst))
    else Step.next { st with sec := [], current_token_type := TokenType.SECTION }
      escape true first
  else if c = ']' ∧ escape = false then
    if st.current_token_type ≠ TokenType.SECTION then
      Step.stop (Except.error (Error.InvalidToken Reason.unexpectedClose))
    else if st.sec = [] then Step.stop (Except.error (Error.InvalidToken Reason.sectionEmpty))
    else Step.stop (Except.ok false)
  else if c = '\\' then
    if escape = true then Step.next (st.append '\\') false true false
    else Step.next st true true false
  else Step.next (st.append c) false true false

/-! ## The association lists -/

theorem find_assign {V : Type} (m : Map V) (a b : Str) (v : V) :
    Map.find (Map.assign m a v) b = if a = b then some v else Map.find m b := by
  induction m with
  | nil => simp [Map.assign, Map.find]
  | cons e m ih =>
    obtain ⟨k, w⟩ := e
    by_cases hk : k = a
    · subst hk
      by_cases hb : k = b <;> simp [Map.assign, Map.find, hb]
    · by_cases hab : a = b
      · subst hab
        simp [Map.assign, Map.find, hk, ih]
      · by_cases hb : k = b
        · subst hb
          simp [Map.assign, Map.find, hk, hab]
        · simp [Map.assign, Map.find, hk, hb, hab, ih]

theorem lookup_store (m : Map Section) (c k v s a : Str) :
    lookup (store m c k v) s a = if c = s ∧ k = a then some v else lookup m s a := by
  unfold lookup store
  rw [find_assign]
  by_cases hc : c = s
  · subst hc
    simp only [if_true, Option.some_bind, find_assign, true_and]
    by_cases hk : k = a
    · simp [hk]
    · simp only [hk, if_false]
      cases Map.find m c <;> simp [Map.find]
  · simp [hc]

theorem find_store_isSome (m : Map Section) (c k v s : Str) :
    (Map.find (store m c k v) s).isSome = (decide (c = s) || (Map.find m s).isSome) := by
  unfold store
  rw [find_assign]
  by_cases hc : c = s <;> simp [hc]

/-! ## Fuel -/

theorem getline_measure (cs : List Char) : (getline cs).measure ≤ cs.length + 1 := by
  induction cs with
  | nil => simp [getline, fstream.measure]
  | cons c cs ih =>
    unfold getline
    split
    · simp [fstream.measure]
    · exact Nat.le_succ_of_le ih

theorem lineEnd_file (read : Bool) (st : ReadState) (f : fstream) :
    (lineEnd read st f).2.2 = f := by
  unfold lineEnd
  split <;> rfl

theorem readLoop_measure (cs : List Char) (st : ReadState) (escape read first : Bool) :
    (readLoop st escape read first cs).2.2.measure ≤ cs.length := by
  induction cs generalizing st escape read first with
  | nil => simp [readLoop, lineEnd_file, fstream.measure]
  | cons c cs ih =>
    unfold readLoop
    repeat' split
    all_goals first
      | exact Nat.le_succ_of_le (ih _ _ _ _)
      | exact getline_measure cs
      | simp [lineEnd_file, fstream.measure]

theorem loadLoop_total (fuel : Nat) (file : fstream) (p : INIparser)
    (h : file.measure ≤ fuel) : ∃ r, loadLoop fuel file p = some r := by
  induction fuel generalizing file p with
  | zero =>
    unfold loadLoop
    have hg : file.good = false := by
      cases hgd : file.good
      · rfl
      · simp [fstream.measure, hgd] at h
    simp [hg]
  | succ n ih =>
    unfold loadLoop
    by_cases hg : file.good = false
    · simp [hg]
    · have hg' : file.good = true := by simpa using hg
      have hm : (readLine file p.m_read_state).2.2.measure ≤ n := by
        simp only [fstream.measure, hg', if_true] at h
        unfold readLine
        exact le_trans (readLoop_measure _ _ _ _ _) (by omega)
      simp only [hg, if_false]
      rcases hr : readLine file p.m_read_state with ⟨o, st, f'⟩
      rw [hr] at hm
      rcases o with e | b
      · exact ⟨_, rfl⟩
      · cases b
        · exact ih f' _ hm
        · exact ih f' _ hm

theorem loadLoop_succ (fuel : Nat) (file : fstream) (p : INIparser) (r : LoadResult)
    (h : loadLoop fuel file p = some r) : loadLoop (fuel + 1) file p = some r := by
  induction fuel generalizing file p with
  | zero =>
    unfold loadLoop at h ⊢
    by_cases hg : file.good = false
    · simpa [hg] using h
    · simp [hg] at h
  | succ n ih =>
    rw [loadLoop] at h ⊢
    by_cases hg : file.good = false
    · simpa [hg] using h
    · simp only [hg, if_false] at h ⊢
      rcases hr : readLine file p.m_read_state with ⟨o, st, f'⟩
      rw [hr] at h
      rcases o with e | b
      · exact h
      · cases b
        · exact ih f' _ h
        · exact ih f' _ h

theorem loadLoop_mono (n m : Nat) (file : fstream) (p : INIparser) (r : LoadResult)
    (h : loadLoop n file p = some r) (hnm : n ≤ m) : loadLoop m file p = some r := by
  induction m with
  | zero =>
    have : n = 0 := by omega
    subst this
    exact h
  | succ k ih =>
    by_cases hk : n ≤ k
    · exact loadLoop_succ k file p r (ih hk)
    · have : n = k + 1 := by omega
      subst this
      exact h

/-- Any amount of fuel on which the loop ends gives the result of `load`. -/
theorem load_of_loadLoop (n : Nat) (cs : List Char) (p : INIparser) (r : LoadResult)
    (h : loadLoop n { rest := cs, good := true } fresh = some r) :
    load p (some cs) = some r := by
  unfold load
  obtain ⟨r', hr'⟩ := loadLoop_total (cs.length + 2) { rest := cs, good := true } fresh
    (by simp [fstream.measure])
  have h1 := loadLoop_mono _ (max n (cs.length + 2)) _ _ _ h (le_max_left _ _)
  have h2 := loadLoop_mono _ (max n (cs.length + 2)) _ _ _ hr' (le_max_right _ _)
  rw [h1] at h2
  show loadLoop (cs.length + 2) { rest := cs, good := true } fresh = some r
  rw [hr']
  exact h2.symm

/-! ## Scanning one token -/

theorem append_type (st : ReadState) (c : Char) :
    (st.append c).current_token_type = st.current_token_type := by
  unfold ReadState.append
  split <;> simp_all

theorem appendAll_type (t : Str) (st : ReadState) :
    (st.appendAll t).current_token_type = st.current_token_type := by
  induction t generalizing st with
  | nil => rfl
  | cons c cs ih =>
    show ((st.append c).appendAll cs).current_token_type = _
    rw [ih, append_type]

theorem appendAll_cons (st : ReadState) (c : Char) (t : Str) :
    st.appendAll (c :: t) = (st.append c).appendAll t := rfl

/-- An escaped token is appended verbatim to the buffer of the current target. -/
theorem readLoop_esc (t : Str) (st : ReadState) (read first : Bool) (R : List Char)
    (ht : ∀ c ∈ t, nameChar c ∧ (st.current_token_type ≠ TokenType.SECTION → c ≠ ' ')) :
    readLoop st false read first (esc t ++ R) =
      readLoop (st.appendAll t) false (read || !t.isEmpty) (first && t.isEmpty) R := by
  induction t generalizing st read first with
  | nil => simp [esc, ReadState.appendAll]
  | cons c cs ih =>
    have hc := ht c (List.mem_cons_self _ _)
    have hcs : ∀ d ∈ cs, nameChar d ∧
        ((st.append c).current_token_type ≠ TokenType.SECTION → d ≠ ' ') := by
      intro d hd
      rw [append_type]
      exact ht d (List.mem_cons_of_mem _ hd)
    obtain ⟨⟨hctl, hnl⟩, hsp⟩ := hc
    simp only [isControl, not_or] at hctl
    obtain ⟨h1, h2, h3, h4⟩ := hctl
    have hsp' : ¬ (st.current_token_type ≠ TokenType.SECTION ∧ c = ' ') :=
      fun h => hsp h.1 h.2
    have key := ih (st.append c) true false hcs
    simp only [Bool.true_or, Bool.false_and] at key
    simp only [List.isEmpty_cons, Bool.not_false, Bool.or_true, Bool.and_false]
    rw [appendAll_cons, ← key]
    by_cases hs : c = '\\' ∨ c = ';' ∨ c = '=' ∨ c = '[' ∨ c = ']'
    · have hesc : esc (c :: cs) = '\\' :: c :: esc cs := by simp [esc, hs]
      rw [hesc]
      rcases hs with h | h | h | h | h <;> subst h <;>
        simp [readLoop]
    · have hesc : esc (c :: cs) = c :: esc cs := by simp [esc, hs]
      rw [hesc]
      simp only [not_or] at hs
      obtain ⟨s1, s2, s3, s4, s5⟩ := hs
      simp [readLoop, h1, h2, h3, h4, hnl, hsp', s1, s2, s3, s4, s5]

theorem appendAll_key (t : Str) (st : ReadState)
    (h : st.current_token_type = TokenType.KEY) :
    st.appendAll t = { st with key := st.key ++ t } := by
  induction t generalizing st with
  | nil => simp [ReadState.appendAll]
  | cons c cs ih =>
    rw [appendAll_cons, ih _ (by rw [append_type]; exact h)]
    simp [ReadState.append, h]

theorem appendAll_val (t : Str) (st : ReadState)
    (h : st.current_token_type = TokenType.VAL) :
    st.appendAll t = { st with val := st.val ++ t } := by
  induction t generalizing st with
  | nil => simp [ReadState.appendAll]
  | cons c cs ih =>
    rw [appendAll_cons, ih _ (by rw [append_type]; exact h)]
    simp [ReadState.append, h]

theorem appendAll_sec (t : Str) (st : ReadState)
    (h : st.current_token_type = TokenType.SECTION) :
    st.appendAll t = { st with sec := st.sec ++ t } := by
  induction t generalizing st with
  | nil => simp [ReadState.appendAll]
  | cons c cs ih =>
    rw [appendAll_cons, ih _ (by rw [append_type]; exact h)]
    simp [ReadState.append, h]

theorem esc_plain (t : Str) (h : ∀ c ∈ t, ¬ isSpecial c) : esc t = t := by
  induction t with
  | nil => rfl
  | cons c cs ih =>
    have hc : ¬ (c = '\\' ∨ c = ';' ∨ c = '=' ∨ c = '[' ∨ c = ']') :=
      h c (List.mem_cons_self _ _)
    simp only [esc, hc, if_false]
    rw [ih (fun d hd => h d (List.mem_cons_of_mem _ hd))]

/-- Blanks outside brackets are skipped. -/
theorem readLoop_blank (ws : List Char) (st : ReadState) (escape read first : Bool)
    (R : List Char) (hws : ∀ c ∈ ws, isBlank c)
    (hst : st.current_token_type ≠ TokenType.SECTION) :
    readLoop st escape read first (ws ++ R) = readLoop st escape read first R := by
  induction ws with
  | nil => rfl
  | cons c cs ih =>
    have hc := hws c (List.mem_cons_self _ _)
    have ih' := ih (fun d hd => hws d (List.mem_cons_of_mem _ hd))
    rw [List.cons_append, ← ih']
    rcases hc with h | h | h | h | h <;> subst h <;> simp [readLoop, hst]

theorem readLoop_eol (R : List Char) (st : ReadState) (escape read first : Bool)
    (hR : isEol R) : readLoop st escape read first R = lineEnd read st (eol R) := by
  rcases hR with h | ⟨R', h⟩ <;> subst h <;> simp [readLoop, eol]

/-- A line `key = value`, both escaped, blanks allowed around either, scanned with
empty key and value buffers. -/
theorem readLine_kv (st : ReadState) (b0 k b1 b2 v b3 R : List Char)
    (hkey : st.key = []) (hval : st.val = []) (hk : k ≠ [])
    (hkc : ∀ c ∈ k, wordChar c) (hvc : ∀ c ∈ v, wordChar c)
    (h0 : ∀ c ∈ b0, isBlank c) (h1 : ∀ c ∈ b1, isBlank c)
    (h2 : ∀ c ∈ b2, isBlank c) (h3 : ∀ c ∈ b3, isBlank c) (hR : isEol R) :
    readLine { rest := b0 ++ (esc k ++ (b1 ++ '=' :: (b2 ++ (esc v ++ (b3 ++ R))))),
               good := true } st =
      (Except.ok true,
        { current_token_type := TokenType.VAL, sec := st.sec, key := k, val := v },
        eol R) := by
  unfold readLine
  rw [readLoop_blank _ _ _ _ _ _ h0 (by simp)]
  rw [readLoop_esc k _ _ _ _ (fun c hc => ⟨(hkc c hc).1, fun _ => (hkc c hc).2⟩)]
  rw [appendAll_key _ _ rfl]
  rw [readLoop_blank _ _ _ _ _ _ h1 (by simp)]
  have hk' : k.isEmpty = false := by cases k <;> simp_all
  simp only [hkey, hk', List.nil_append, Bool.not_false, Bool.or_true, Bool.and_false]
  rw [readLoop]
  simp only [hk, if_false, Char.reduceEq, false_or, or_self, false_and, and_false,
    true_and, if_true, ne_eq]
  rw [readLoop_blank _ _ _ _ _ _ h2 (by simp)]
  rw [readLoop_esc v _ _ _ _ (fun c hc => ⟨(hvc c hc).1, fun _ => (hvc c hc).2⟩)]
  rw [appendAll_val _ _ rfl]
  rw [readLoop_blank _ _ _ _ _ _ h3 (by simp)]
  rw [readLoop_eol _ _ _ _ _ hR]
  simp [lineEnd, hval, hk]

/-- A section header, escaped, scanned up to its closing bracket. -/
theorem readLine_header (st : ReadState) (b0 s R : List Char) (hs : s ≠ [])
    (hsc : ∀ c ∈ s, nameChar c) (h0 : ∀ c ∈ b0, isBlank c) :
    readLine { rest := b0 ++ '[' :: (esc s ++ ']' :: R), good := true } st =
      (Except.ok false,
        { current_token_type := TokenType.SECTION, sec := s, key := st.key, val := st.val },
        { rest := R, good := true }) := by
  unfold readLine
  rw [readLoop_blank _ _ _ _ _ _ h0 (by simp)]
  rw [readLoop]
  simp only [Char.reduceEq, false_or, or_self, false_and, and_false, if_false, true_and,
    if_true, ne_eq]
  rw [readLoop_esc s _ _ _ _ (fun c hc => ⟨hsc c hc, fun h => absurd rfl h⟩)]
  rw [appendAll_sec _ _ rfl]
  rw [readLoop]
  simp [hs]

/-- A section header whose closing bracket is missing, scanned to the end of the line. -/
theorem readLine_open_header (st : ReadState) (b0 s R : List Char)
    (hsc : ∀ c ∈ s, nameChar c) (h0 : ∀ c ∈ b0, isBlank c) (hR : isEol R) :
    readLine { rest := b0 ++ '[' :: (esc s ++ R), good := true } st =
      (Except.ok true,
        { current_token_type := TokenType.SECTION, sec := s, key := st.key, val := st.val },
        eol R) := by
  unfold readLine
  rw [readLoop_blank _ _ _ _ _ _ h0 (by simp)]
  rw [readLoop]
  simp only [Char.reduceEq, false_or, or_self, false_and, and_false, if_false, true_and,
    if_true, ne_eq]
  rw [readLoop_esc s _ _ _ _ (fun c hc => ⟨hsc c hc, fun h => absurd rfl h⟩)]
  rw [appendAll_sec _ _ rfl]
  rw [readLoop_eol _ _ _ _ _ hR]
  simp [lineEnd]

theorem readLine_nil (st : ReadState) :
    readLine { rest := [], good := true } st =
      (Except.ok false, { st with current_token_type := TokenType.KEY },
        { rest := [], good := false }) := by
  simp [readLine, readLoop, lineEnd]

theorem readLine_newline (st : ReadState) (R : List Char) :
    readLine { rest := '\n' :: R, good := true } st =
      (Except.ok false, { st with current_token_type := TokenType.KEY },
        { rest := R, good := true }) := by
  simp [readLine, readLoop, lineEnd]

/-! ## One iteration of the loop of `load` -/

theorem loadLoop_done (n : Nat) (R : List Char) (p : INIparser) :
    loadLoop n { rest := R, good := false } p = some { outcome := Except.ok (), parser := p } := by
  unfold loadLoop
  simp

theorem loadLoop_error (n : Nat) (file : fstream) (p : INIparser) (e : Error)
    (st : ReadState) (f : fstream) (hg : file.good = true)
    (h : readLine file p.m_read_state = (Except.error e, st, f)) :
    loadLoop (n + 1) file p =
      some { outcome := Except.error e, parser := { p with m_read_state := st } } := by
  rw [loadLoop]
  simp [hg, h]

theorem loadLoop_skip (n : Nat) (file : fstream) (p : INIparser)
    (st : ReadState) (f : fstream) (hg : file.good = true)
    (h : readLine file p.m_read_state = (Except.ok false, st, f)) :
    loadLoop (n + 1) file p = loadLoop n f { p with m_read_state := st } := by
  rw [loadLoop]
  simp [hg, h]

theorem loadLoop_commit (n : Nat) (file : fstream) (p : INIparser)
    (st : ReadState) (f : fstream) (hg : file.good = true)
    (h : readLine file p.m_read_state = (Except.ok true, st, f)) :
    loadLoop (n + 1) file p =
      loadLoop n f
        { m_sections :=
            if st.current_token_type ≠ TokenType.SECTION then
              store p.m_sections st.sec st.key st.val
            else p.m_sections
          m_read_state :=
            { st with key := [], val := [], current_token_type := TokenType.KEY } } := by
  rw [loadLoop]
  simp [hg, h]

/-- At the end of input one more iteration ends the loop. -/
theorem loadLoop_nil (n : Nat) (p : INIparser) :
    loadLoop (n + 1) { rest := [], good := true } p =
      some { outcome := Except.ok (),
             parser := { p with m_read_state :=
               { p.m_read_state with current_token_type := TokenType.KEY } } } := by
  rw [loadLoop_skip n _ p _ _ rfl (readLine_nil _), loadLoop_done]

/-! ## Plain documents -/

theorem readLine_plain_kv (st : ReadState) (k v R : List Char)
    (hkey : st.key = []) (hval : st.val = []) (hl : (PLine.kv k v).valid) (hR : isEol R) :
    readLine { rest := (PLine.kv k v).render ++ R, good := true } st =
      (Except.ok true,
        { current_token_type := TokenType.VAL, sec := st.sec, key := k, val := v },
        eol R) := by
  obtain ⟨hk, _, hkc, hvc⟩ := hl
  have h := readLine_kv st [] k [' '] [' '] v [] R hkey hval hk
    (fun c hc => (hkc c hc).1) (fun c hc => (hvc c hc).1)
    (by simp) (by simp [isBlank]) (by simp [isBlank]) (by simp) hR
  rw [esc_plain k (fun c hc => (hkc c hc).2), esc_plain v (fun c hc => (hvc c hc).2)] at h
  simpa [PLine.render] using h

theorem readLine_plain_header (st : ReadState) (n R : List Char)
    (hl : (PLine.header n).valid) :
    readLine { rest := (PLine.header n).render ++ R, good := true } st =
      (Except.ok false,
        { current_token_type := TokenType.SECTION, sec := n, key := st.key, val := st.val },
        { rest := R, good := true }) := by
  obtain ⟨hn, hnc⟩ := hl
  have h := readLine_header st [] n R hn (fun c hc => (hnc c hc).1) (by simp)
  rw [esc_plain n (fun c hc => (hnc c hc).2)] at h
  simpa [PLine.render] using h

theorem applyLine_buffers (p : INIparser) (l : PLine) :
    (applyLine p l).m_read_state.key = [] ∧ (applyLine p l).m_read_state.val = [] ∧
      (applyLine p l).m_read_state.current_token_type = TokenType.KEY := by
  cases l <;> simp [applyLine]

/-- A plain line followed by a newline: the loop goes on with the text after it. -/
theorem loadLoop_line_newline (l : PLine) (p : INIparser) (R : List Char) (n : Nat)
    (hl : l.valid) (hkey : p.m_read_state.key = []) (hval : p.m_read_state.val = []) :
    loadLoop (n + 2) { rest := l.render ++ '\n' :: R, good := true } p =
      loadLoop n { rest := R, good := true } (applyLine p l) ∨
    loadLoop (n + 1) { rest := l.render ++ '\n' :: R, good := true } p =
      loadLoop n { rest := R, good := true } (applyLine p l) := by
  cases l with
  | header s =>
    left
    rw [loadLoop_skip (n + 1) _ p _ _ rfl (readLine_plain_header _ s _ hl)]
    rw [loadLoop_skip n _ _ _ _ rfl (readLine_newline _ _)]
    simp [applyLine, hkey, hval]
  | kv k v =>
    right
    rw [loadLoop_commit n _ p _ _ rfl
      (readLine_plain_kv _ k v _ hkey hval hl (Or.inr ⟨R, rfl⟩))]
    simp [applyLine, eol]

/-- A plain line that ends the input. -/
theorem loadLoop_line_eof (l : PLine) (p : INIparser)
    (hl : l.valid) (hkey : p.m_read_state.key = []) (hval : p.m_read_state.val = []) :
    loadLoop 2 { rest := l.render, good := true } p =
      some { outcome := Except.ok (), parser := applyLine p l } := by
  cases l with
  | header s =>
    have h := readLine_plain_header p.m_read_state s [] hl
    rw [List.append_nil] at h
    rw [loadLoop_skip 1 _ p _ _ rfl h, loadLoop_nil]
    simp [applyLine, hkey, hval]
  | kv k v =>
    have h := readLine_plain_kv p.m_read_state k v [] hkey hval hl (Or.inl rfl)
    rw [List.append_nil] at h
    rw [loadLoop_commit 1 _ p _ _ rfl h]
    simp [applyLine, eol, loadLoop_done]

/-- The loop of `load` on a plain document. -/
theorem loadLoop_document (ls : List PLine) (trailing : Bool) (p : INIparser)
    (hv : ∀ l ∈ ls, l.valid) (hkey : p.m_read_state.key = [])
    (hval : p.m_read_state.val = []) :
    ∃ n, loadLoop n { rest := document ls trailing, good := true } p =
      some { outcome := Except.ok (), parser := applyLines p ls } := by
  induction ls generalizing p with
  | nil => exact ⟨1, by rw [document, loadLoop_nil]; rfl⟩
  | cons l ls ih =>
    have hl := hv l (List.mem_cons_self _ _)
    have hls : ∀ l' ∈ ls, l'.valid := fun l' h => hv l' (List.mem_cons_of_mem _ h)
    obtain ⟨hk', hv', ht'⟩ := applyLine_buffers p l
    cases ls with
    | nil =>
      cases trailing with
      | false =>
        refine ⟨2, ?_⟩
        simp only [document, applyLines, if_false, List.append_nil, Bool.false_eq_true]
        rw [loadLoop_line_eof l p hl hkey hval, ← ht']
      | true =>
        simp only [document, if_true]
        rcases loadLoop_line_newline l p [] 1 hl hkey hval with h | h
        · exact ⟨3, by rw [h, loadLoop_nil]; rfl⟩
        · exact ⟨2, by rw [h, loadLoop_nil]; rfl⟩
    | cons l' ls' =>
      obtain ⟨n, hn⟩ := ih (applyLine p l) hls hk' hv'
      simp only [document]
      rcases loadLoop_line_newline l p (document (l' :: ls') trailing) n hl hkey hval with h | h
      · exact ⟨n + 2, by rw [h, hn]; rfl⟩
      · exact ⟨n + 1, by rw [h, hn]; rfl⟩

theorem lookup_applyLines (ls : List PLine) (p : INIparser) (s k : Str) :
    lookup (applyLines p ls).m_sections s k =
      match lastDecl ls (some p.m_read_state.sec) (some s) k with
      | some v => some v
      | none => lookup p.m_sections s k := by
  induction ls generalizing p with
  | nil => simp [applyLines, lastDecl]
  | cons l ls ih =>
    cases l with
    | header n =>
      rw [applyLines, ih]
      simp [applyLine, lastDecl]
    | kv k' v =>
      rw [applyLines, ih]
      simp only [applyLine, lastDecl, lookup_store]
      cases lastDecl ls (some p.m_read_state.sec) (some s) k with
      | some w => rfl
      | none =>
        by_cases h : p.m_read_state.sec = s ∧ k' = k
        · simp [h]
        · have h' : ¬ (some p.m_read_state.sec = some s ∧ k' = k) := by
            simpa using h
          simp only [h, h', if_false]

theorem find_applyLines (ls : List PLine) (p : INIparser) (s : Str) :
    (Map.find (applyLines p ls).m_sections s).isSome =
      (declares ls (some p.m_read_state.sec) (some s) || (Map.find p.m_sections s).isSome) := by
  induction ls generalizing p with
  | nil => simp [applyLines, declares]
  | cons l ls ih =>
    cases l with
    | header n =>
      rw [applyLines, ih]
      simp [applyLine, declares]
    | kv k' v =>
      rw [applyLines, ih]
      simp only [applyLine, declares, find_store_isSome]
      by_cases h : p.m_read_state.sec = s
      · simp [h]
      · simp [h, Bool.or_comm]

theorem getVal_of_lookup (q : INIparser) (s k v : Str)
    (h : lookup q.m_sections s k = some v) : getVal q s k = Except.ok v := by
  unfold lookup at h
  unfold getVal
  cases hs : Map.find q.m_sections s with
  | none => simp [hs] at h
  | some sect =>
    simp only [hs, Option.some_bind] at h
    simp [h]

theorem getVal_keyNotFound (q : INIparser) (s k : Str)
    (hs : (Map.find q.m_sections s).isSome = true) (h : lookup q.m_sections s k = none) :
    getVal q s k = Except.error Error.KeyNotFound := by
  unfold lookup at h
  unfold getVal
  cases hf : Map.find q.m_sections s with
  | none => simp [hf] at hs
  | some sect =>
    simp only [hf, Option.some_bind] at h
    simp [h]

/-- Two readings of "under header `tgt`" that agree on the place of the first line and
on every header of the document give the same last declaration. -/
theorem lastDecl_congr (ls : List PLine) (cur cur' tgt tgt' : Option Str) (k : Str)
    (h1 : cur = tgt ↔ cur' = tgt')
    (h2 : ∀ n, PLine.header n ∈ ls → (some n = tgt ↔ some n = tgt')) :
    lastDecl ls cur tgt k = lastDecl ls cur' tgt' k := by
  induction ls generalizing cur cur' with
  | nil => rfl
  | cons l ls ih =>
    have h2' : ∀ n, PLine.header n ∈ ls → (some n = tgt ↔ some n = tgt') :=
      fun n hn => h2 n (List.mem_cons_of_mem _ hn)
    cases l with
    | header n =>
      simp only [lastDecl]
      exact ih _ _ (h2 n (List.mem_cons_self _ _)) h2'
    | kv k' v =>
      simp only [lastDecl]
      rw [ih _ _ h1 h2']
      by_cases h : cur = tgt
      · simp [h, h1.mp h]
      · have h' : ¬ cur' = tgt' := fun hc => h (h1.mpr hc)
        simp [h, h']

theorem declares_congr (ls : List PLine) (cur cur' tgt tgt' : Option Str)
    (h1 : cur = tgt ↔ cur' = tgt')
    (h2 : ∀ n, PLine.header n ∈ ls → (some n = tgt ↔ some n = tgt')) :
    declares ls cur tgt = declares ls cur' tgt' := by
  induction ls generalizing cur cur' with
  | nil => rfl
  | cons l ls ih =>
    have h2' : ∀ n, PLine.header n ∈ ls → (some n = tgt ↔ some n = tgt') :=
      fun n hn => h2 n (List.mem_cons_of_mem _ hn)
    cases l with
    | header n =>
      simp only [declares]
      exact ih _ _ (h2 n (List.mem_cons_self _ _)) h2'
    | kv k' v =>
      simp only [declares]
      rw [ih _ _ h1 h2']
      by_cases h : cur = tgt
      · simp [h, h1.mp h]
      · have h' : ¬ cur' = tgt' := fun hc => h (h1.mpr hc)
        simp [h, h']

/-- Where no line can stand under `tgt`, nothing is declared under it. -/
theorem declares_never (ls : List PLine) (cur tgt : Option Str) (h1 : cur ≠ tgt)
    (h2 : ∀ n, PLine.header n ∈ ls → some n ≠ tgt) : declares ls cur tgt = false := by
  induction ls generalizing cur with
  | nil => rfl
  | cons l ls ih =>
    have h2' : ∀ n, PLine.header n ∈ ls → some n ≠ tgt :=
      fun n hn => h2 n (List.mem_cons_of_mem _ hn)
    cases l with
    | header n =>
      simp only [declares]
      exact ih _ (h2 n (List.mem_cons_self _ _)) h2'
    | kv k' v =>
      simp only [declares]
      rw [ih _ h1 h2']
      simp [h1]

theorem example_loads (p0 : INIparser) :
    load p0 (some exampleDocument) = some { outcome := Except.ok (), parser :=
      { m_sections := exampleSections,
        m_read_state := ⟨TokenType.KEY, "server".toList, [], []⟩ } } := by
  apply load_of_loadLoop 80
  decide!

theorem lastDecl_never (ls : List PLine) (cur tgt : Option Str) (k : Str) (h1 : cur ≠ tgt)
    (h2 : ∀ n, PLine.header n ∈ ls → some n ≠ tgt) : lastDecl ls cur tgt k = none := by
  induction ls generalizing cur with
  | nil => rfl
  | cons l ls ih =>
    have h2' : ∀ n, PLine.header n ∈ ls → some n ≠ tgt :=
      fun n hn => h2 n (List.mem_cons_of_mem _ hn)
    cases l with
    | header n =>
      simp only [lastDecl]
      exact ih _ (h2 n (List.mem_cons_self _ _)) h2'
    | kv k' v =>
      simp only [lastDecl]
      rw [ih _ h1 h2']
      simp [h1]

theorem load_document (p0 : INIparser) (ls : List PLine) (trailing : Bool)
    (hv : ∀ l ∈ ls, l.valid) :
    load p0 (some (document ls trailing)) =
      some { outcome := Except.ok (), parser := applyLines fresh ls } := by
  obtain ⟨n, hn⟩ := loadLoop_document ls trailing fresh hv rfl rfl
  exact load_of_loadLoop n _ p0 _ hn

theorem get2_applyLines (ls : List PLine) (s k v : Str)
    (h : lastDecl ls (some [' ']) (some s) k = some v) :
    get2 (applyLines fresh ls) s k = Except.ok v := by
  apply getVal_of_lookup
  rw [lookup_applyLines]
  show (match lastDecl ls (some [' ']) (some s) k with
    | some v => some v
    | none => lookup [] s k) = _
  rw [h]

/-- The last declaration in a document cut at a header. -/
theorem lastDecl_append_header (X Y : List PLine) (n : Str) (cur tgt : Option Str)
    (k : Str) :
    lastDecl (X ++ PLine.header n :: Y) cur tgt k =
      match lastDecl Y (some n) tgt k with
      | some w => some w
      | none => lastDecl X cur tgt k := by
  induction X generalizing cur with
  | nil =>
    simp only [List.nil_append, lastDecl]
    cases lastDecl Y (some n) tgt k <;> rfl
  | cons l X ih =>
    cases l with
    | header m =>
      simp only [List.cons_append, lastDecl]
      exact ih _
    | kv k' v =>
      simp only [List.cons_append, lastDecl]
      rw [show X.append (PLine.header n :: Y) = X ++ PLine.header n :: Y from rfl, ih]
      cases lastDecl Y (some n) tgt k <;> rfl

/-- The loop of `load` never removes an entry: a key that a section holds when an
iteration starts is still held, with some value, when the loop ends or throws. -/
theorem loadLoop_keeps_keys (n : Nat) (file : fstream) (p : INIparser) (r : LoadResult)
    (s k : Str) (h : loadLoop n file p = some r)
    (hk : (lookup p.m_sections s k).isSome = true) :
    (lookup r.parser.m_sections s k).isSome = true := by
  induction n generalizing file p with
  | zero =>
    unfold loadLoop at h
    by_cases hg : file.good = false
    · simp only [hg, if_true, Option.some.injEq] at h
      rw [← h]
      exact hk
    · simp [hg] at h
  | succ n ih =>
    by_cases hg : file.good = false
    · rw [loadLoop] at h
      simp only [hg, if_true, Option.some.injEq] at h
      rw [← h]
      exact hk
    · have hg' : file.good = true := by simpa using hg
      rcases hr : readLine file p.m_read_state with ⟨o, st, f'⟩
      rcases o with e | b
      · rw [loadLoop_error n file p e st f' hg' hr, Option.some.injEq] at h
        rw [← h]
        exact hk
      · cases b
        · rw [loadLoop_skip n file p st f' hg' hr] at h
          exact ih f' _ h hk
        · rw [loadLoop_commit n file p st f' hg' hr] at h
          refine ih f' _ h ?_
          show (lookup (if st.current_token_type ≠ TokenType.SECTION then
            store p.m_sections st.sec st.key st.val else p.m_sections) s k).isSome = true
          split
          · rw [lookup_store]
            split
            · rfl
            · exact hk
          · exact hk

/-! ## Deleting the control characters -/

theorem getline_strip (cs : List Char) : getline (stripControl cs) = (getline cs).strip := by
  induction cs with
  | nil => rfl
  | cons c cs ih =>
    by_cases hc : c = '\t' ∨ c = '\x0c' ∨ c = '\r' ∨ c = '\x0b'
    · have hn : c ≠ '\n' := by rcases hc with h | h | h | h <;> subst h <;> decide
      simp only [stripControl, hc, if_true, getline, hn, if_false]
      exact ih
    · by_cases hn : c = '\n'
      · simp [stripControl, hc, getline, hn, fstream.strip]
      · simp only [stripControl, hc, if_false, getline, hn]
        exact ih

theorem lineEnd_strip (read : Bool) (st : ReadState) (f : fstream) :
    lineEnd read st f.strip =
      ((lineEnd read st f).1, (lineEnd read st f).2.1, (lineEnd read st f).2.2.strip) := by
  unfold lineEnd
  split <;> rfl

theorem readLoop_strip (cs : List Char) (st : ReadState) (escape read first : Bool) :
    readLoop st escape read first (stripControl cs) =
      ((readLoop st escape read first cs).1, (readLoop st escape read first cs).2.1,
        (readLoop st escape read first cs).2.2.strip) := by
  induction cs generalizing st escape read first with
  | nil => simp [stripControl, readLoop, lineEnd_file, fstream.strip, lineEnd]; split <;> rfl
  | cons c cs ih =>
    by_cases hc : c = '\t' ∨ c = '\x0c' ∨ c = '\r' ∨ c = '\x0b'
    · have hn : c ≠ '\n' := by rcases hc with h | h | h | h <;> subst h <;> decide
      rw [stripControl, if_pos hc, ih]
      rw [readLoop]
      simp only [hn, hc, if_true, if_false]
    · rw [stripControl, if_neg hc]
      rw [readLoop, readLoop]
      simp only [hc, if_false]
      split
      · exact lineEnd_strip read st { rest := cs, good := true }
      · split
        · exact ih _ _ _ _
        · split
          · simp only [getline_strip]
          · split
            · split
              · rfl
              · exact ih _ _ _ _
            · split
              · split
                · rfl
                · exact ih _ _ _ _
              · split
                · split
                  · rfl
                  · split <;> rfl
                · split
                  · split <;> exact ih _ _ _ _
                  · exact ih _ _ _ _

theorem readLine_strip (file : fstream) (st : ReadState) :
    readLine file.strip st =
      ((readLine file st).1, (readLine file st).2.1, (readLine file st).2.2.strip) := by
  unfold readLine
  exact readLoop_strip _ _ _ _ _

theorem loadLoop_strip (n : Nat) (file : fstream) (p : INIparser) :
    loadLoop n file.strip p = loadLoop n file p := by
  induction n generalizing file p with
  | zero =>
    unfold loadLoop
    rfl
  | succ n ih =>
    by_cases hg : file.good = false
    · rw [loadLoop, loadLoop]
      have hg' : file.strip.good = false := hg
      simp [hg, hg']
    · have hg1 : file.good = true := by simpa using hg
      have hg2 : file.strip.good = true := hg1
      rcases hr : readLine file p.m_read_state with ⟨o, st, f'⟩
      have hs : readLine file.strip p.m_read_state = (o, st, f'.strip) := by
        rw [readLine_strip, hr]
      rcases o with e | b
      · rw [loadLoop_error n _ p e st _ hg1 hr, loadLoop_error n _ p e st _ hg2 hs]
      · cases b
        · rw [loadLoop_skip n _ p st _ hg1 hr, loadLoop_skip n _ p st _ hg2 hs, ih]
        · rw [loadLoop_commit n _ p st _ hg1 hr, loadLoop_commit n _ p st _ hg2 hs, ih]

/-- Two runs of the loop that end alike, on whatever fuel, give the same `load`. -/
theorem load_congr (p q : INIparser) (A B : List Char) (n m : Nat) (r : LoadResult)
    (hA : loadLoop n { rest := A, good := true } fresh = some r)
    (hB : loadLoop m { rest := B, good := true } fresh = some r) :
    load p (some A) = load q (some B) := by
  rw [load_of_loadLoop n A p r hA, load_of_loadLoop m B q r hB]

theorem load_total (p : INIparser) (cs : List Char) : ∃ r, load p (some cs) = some r :=
  loadLoop_total _ _ _ (by simp [fstream.measure])

theorem load_strip (p q : INIparser) (cs : List Char) :
    load p (some (stripControl cs)) = load q (some cs) := by
  obtain ⟨r, hr⟩ := load_total q cs
  have h1 : loadLoop (cs.length + 2) { rest := cs, good := true } fresh = some r := hr
  have h2 := loadLoop_strip (cs.length + 2) { rest := cs, good := true } fresh
  rw [h1] at h2
  exact load_congr p q _ _ _ _ r h2 h1

/-! ## Invariants of the scan -/

theorem keyed_append (st : ReadState) (c : Char) (h : st.keyed) : (st.append c).keyed := by
  unfold ReadState.keyed ReadState.append at *
  cases ht : st.current_token_type <;> simp_all

theorem valueRead_append (st : ReadState) (c : Char) (read first : Bool)
    (h : st.valueRead read first) : (st.append c).valueRead true false := by
  unfold ReadState.valueRead ReadState.append at *
  cases ht : st.current_token_type <;> simp_all

theorem lineEnd_keyed (read : Bool) (st : ReadState) (f : fstream) (h : st.keyed) :
    (lineEnd read st f).2.1.keyed ∧
      ((lineEnd read st f).1 = Except.ok true →
        (lineEnd read st f).2.1.current_token_type ≠ TokenType.SECTION →
        (lineEnd read st f).2.1.key ≠ []) := by
  unfold lineEnd
  split
  · exact ⟨h, fun h' => by simp at h'⟩
  · rename_i hc
    refine ⟨h, fun h1 h2 => ?_⟩
    simp only [Except.ok.injEq] at h1
    intro hk
    apply hc
    refine ⟨h1, h2, hk, ?_⟩
    by_contra hv
    exact h (Or.inl hv) hk

theorem lineEnd_skip_val (read first : Bool) (st : ReadState) (f : fstream)
    (hj : st.valueRead read first) (hr : (lineEnd read st f).1 = Except.ok false) :
    (lineEnd read st f).2.1.val = [] := by
  unfold lineEnd at hr ⊢
  split at hr
  · simp at hr
  · rename_i hc
    simp only [hc, if_false]
    simp only [Except.ok.injEq] at hr
    by_contra hv
    have := (hj hv).2.2
    rw [hr] at this
    exact absurd this (by simp)

/-- The scan keeps the buffers keyed, and a line it reports as read outside brackets has
a non-empty key. -/
theorem readLoop_keyed (cs : List Char) (st : ReadState) (escape read first : Bool)
    (h : st.keyed) :
    (readLoop st escape read first cs).2.1.keyed ∧
      ((readLoop st escape read first cs).1 = Except.ok true →
        (readLoop st escape read first cs).2.1.current_token_type ≠ TokenType.SECTION →
        (readLoop st escape read first cs).2.1.key ≠ []) := by
  induction cs generalizing st escape read first with
  | nil => exact lineEnd_keyed _ _ _ h
  | cons c cs ih =>
    rw [readLoop]
    split
    · exact lineEnd_keyed _ _ _ h
    · split
      · exact ih _ _ _ _ h
      · split
        · exact ih _ _ _ _ h
        · split
          · refine ⟨h, fun h1 _ => ?_⟩
            simp only [Except.ok.injEq, Bool.and_eq_true, decide_eq_true_eq] at h1
            exact h1.1
          · split
            · split
              · exact ⟨h, fun h' => by simp at h', ⟩
              · rename_i hk
                exact ih _ _ _ _ (fun _ => hk)
            · split
              · split
                · exact ⟨h, fun h' => by simp at h'⟩
                · exact ih _ _ _ _ (fun hv => h (Or.inl (by simpa using hv)))
              · split
                · split
                  · exact ⟨h, fun h' => by simp at h'⟩
                  · split
                    · exact ⟨h, fun h' => by simp at h'⟩
                    · exact ⟨h, fun h' => by simp at h'⟩
                · split
                  · split
                    · exact ih _ _ _ _ (keyed_append _ _ h)
                    · exact ih _ _ _ _ h
                  · exact ih _ _ _ _ (keyed_append _ _ h)

/-- A line that the scan reports as not read leaves the value buffer empty. -/
theorem readLoop_skip_val (cs : List Char) (st : ReadState) (escape read first : Bool)
    (h : st.keyed) (hj : st.valueRead read first) :
    (readLoop st escape read first cs).1 = Except.ok false →
      (readLoop st escape read first cs).2.1.val = [] := by
  induction cs generalizing st escape read first with
  | nil => exact lineEnd_skip_val _ _ _ _ hj
  | cons c cs ih =>
    rw [readLoop]
    split
    · exact lineEnd_skip_val _ _ _ _ hj
    · split
      · exact ih _ _ _ _ h hj
      · split
        · exact ih _ _ _ _ h hj
        · split
          · intro hr
            simp only [Except.ok.injEq, Bool.and_eq_false_iff, decide_eq_false_iff_not,
              ne_eq, not_not] at hr
            rcases hr with hk | hv
            · by_contra hv
              exact h (Or.inl hv) hk
            · exact hv
          · split
            · split
              · intro hr
                simp at hr
              · rename_i hk
                refine ih _ _ _ _ (fun _ => hk) ?_
                intro hv
                exact ⟨(hj hv).1, rfl, rfl⟩
            · split
              · split
                · intro hr
                  simp at hr
                · rename_i hf
                  have hval : st.val = [] := by
                    by_contra hv
                    exact hf (hj hv).1
                  refine ih _ _ _ _ (fun hv => h (Or.inl (by simpa using hv))) ?_
                  intro hv
                  exact absurd hval hv
              · split
                · split
                  · intro hr
                    simp at hr
                  · rename_i ht
                    split
                    · intro hr
                      simp at hr
                    · intro _
                      by_contra hv
                      exact ht (by rw [(hj hv).2.1]; decide)
                · split
                  · split
                    · exact ih _ _ _ _ (keyed_append _ _ h) (valueRead_append _ _ _ _ hj)
                    · refine ih _ _ _ _ h ?_
                      intro hv
                      exact ⟨rfl, (hj hv).2.1, rfl⟩
                  · exact ih _ _ _ _ (keyed_append _ _ h) (valueRead_append _ _ _ _ hj)

theorem readLine_keyed (file : fstream) (st : ReadState)
    (h : st.val ≠ [] → st.key ≠ []) :
    (readLine file st).2.1.keyed ∧
      ((readLine file st).1 = Except.ok true →
        (readLine file st).2.1.current_token_type ≠ TokenType.SECTION →
        (readLine file st).2.1.key ≠ []) := by
  unfold readLine
  apply readLoop_keyed
  intro hv
  rcases hv with hv | hv
  · exact h hv
  · simp at hv

theorem readLine_skip_val (file : fstream) (st : ReadState) (h : st.val = [])
    (hr : (readLine file st).1 = Except.ok false) : (readLine file st).2.1.val = [] := by
  unfold readLine at hr ⊢
  refine readLoop_skip_val _ _ _ _ _ ?_ ?_ hr
  · intro hv
    rcases hv with hv | hv
    · exact absurd h hv
    · simp at hv
  · intro hv
    exact absurd h hv

theorem mem_assign {V : Type} (m : Map V) (a : Str) (v : V) (e : Str × V)
    (h : e ∈ Map.assign m a v) : e = (a, v) ∨ e ∈ m := by
  induction m with
  | nil =>
    left
    simpa [Map.assign] using h
  | cons x m ih =>
    obtain ⟨k, w⟩ := x
    unfold Map.assign at h
    split at h
    · rename_i hk
      rcases List.mem_cons.mp h with h' | h'
      · left
        rw [h', hk]
      · right
        exact List.mem_cons_of_mem _ h'
    · rcases List.mem_cons.mp h with h' | h'
      · right
        rw [h']
        exact List.mem_cons_self _ _
      · rcases ih h' with h'' | h''
        · left
          exact h''
        · right
          exact List.mem_cons_of_mem _ h''

theorem mem_of_find {V : Type} (m : Map V) (a : Str) (v : V) (h : Map.find m a = some v) :
    (a, v) ∈ m := by
  induction m with
  | nil => simp [Map.find] at h
  | cons x m ih =>
    obtain ⟨k, w⟩ := x
    unfold Map.find at h
    split at h
    · rename_i hk
      simp only [Option.some.injEq] at h
      rw [← hk, ← h]
      exact List.mem_cons_self _ _
    · exact List.mem_cons_of_mem _ (ih h)

theorem keysNonEmpty_store (m : Map Section) (s k v : Str) (hm : keysNonEmpty m)
    (hk : k ≠ []) : keysNonEmpty (store m s k v) := by
  intro e he kv hkv
  unfold store at he
  rcases mem_assign _ _ _ _ he with h | h
  · rw [h] at hkv
    rcases mem_assign _ _ _ _ hkv with h' | h'
    · rw [h']
      exact hk
    · cases hf : Map.find m s with
      | none =>
        rw [hf] at h'
        simp at h'
      | some sect =>
        rw [hf] at h'
        exact hm _ (mem_of_find m s sect hf) kv h'
  · exact hm e h kv hkv

/-- The loop of `load` keeps the buffers keyed and writes only entries with a non-empty
key, also when it ends with an exception. -/
theorem loadLoop_keyed (n : Nat) (file : fstream) (p : INIparser) (r : LoadResult)
    (h : loadLoop n file p = some r)
    (hp : p.m_read_state.val ≠ [] → p.m_read_state.key ≠ [])
    (hm : keysNonEmpty p.m_sections) :
    (r.parser.m_read_state.val ≠ [] → r.parser.m_read_state.key ≠ []) ∧
      keysNonEmpty r.parser.m_sections := by
  induction n generalizing file p with
  | zero =>
    unfold loadLoop at h
    by_cases hg : file.good = false
    · simp only [hg, if_true, Option.some.injEq] at h
      rw [← h]
      exact ⟨hp, hm⟩
    · simp [hg] at h
  | succ n ih =>
    by_cases hg : file.good = false
    · rw [loadLoop] at h
      simp only [hg, if_true, Option.some.injEq] at h
      rw [← h]
      exact ⟨hp, hm⟩
    · have hg' : file.good = true := by simpa using hg
      have hk := readLine_keyed file p.m_read_state hp
      rcases hr : readLine file p.m_read_state with ⟨o, st, f'⟩
      rw [hr] at hk
      rcases o with e | b
      · rw [loadLoop_error n file p e st f' hg' hr, Option.some.injEq] at h
        rw [← h]
        exact ⟨fun hv => hk.1 (Or.inl hv), hm⟩
      · cases b
        · rw [loadLoop_skip n file p st f' hg' hr] at h
          exact ih f' _ h (fun hv => hk.1 (Or.inl hv)) hm
        · rw [loadLoop_commit n file p st f' hg' hr] at h
          refine ih f' _ h (fun hv => absurd rfl hv) ?_
          show keysNonEmpty (if st.current_token_type ≠ TokenType.SECTION then
            store p.m_sections st.sec st.key st.val else p.m_sections)
          split
          · rename_i ht
            exact keysNonEmpty_store _ _ _ _ hm (hk.2 rfl ht)
          · exact hm

/-- The loop of `load` does not look at the target the last line has left. -/
theorem loadLoop_type (n : Nat) (file : fstream) (p : INIparser) (t : TokenType)
    (hg : file.good = true) :
    loadLoop n file
        { p with m_read_state := { p.m_read_state with current_token_type := t } } =
      loadLoop n file p := by
  cases n with
  | zero =>
    unfold loadLoop
    simp [hg]
  | succ n =>
    rw [loadLoop, loadLoop]
    simp only [hg]
    rfl

/-! ## Text after the first line -/

/-- The loop of `readLine` unfolded by one character. -/
theorem readLoop_cons (st : ReadState) (escape read first : Bool) (c : Char)
    (cs : List Char) :
    readLoop st escape read first (c :: cs) =
      match loopStep st escape read first c with
      | Step.next st' e' r' f' => readLoop st' e' r' f' cs
      | Step.endLine => lineEnd read st { rest := cs, good := true }
      | Step.comment =>
        (Except.ok (decide (st.key ≠ []) && decide (st.val ≠ [])), st, getline cs)
      | Step.stop o => (o, st, { rest := cs, good := true }) := by
  rw [readLoop]
  unfold loopStep
  by_cases h1 : c = '\n'
  · rw [if_pos h1, if_pos h1]
  rw [if_neg h1, if_neg h1]
  by_cases h2 : c = '\t' ∨ c = '\x0c' ∨ c = '\r' ∨ c = '\x0b'
  · rw [if_pos h2, if_pos h2]
  rw [if_neg h2, if_neg h2]
  by_cases h3 : st.current_token_type ≠ TokenType.SECTION ∧ c = ' '
  · rw [if_pos h3, if_pos h3]
  rw [if_neg h3, if_neg h3]
  by_cases h4 : c = ';' ∧ escape = false
  · rw [if_pos h4, if_pos h4]
  rw [if_neg h4, if_neg h4]
  by_cases h5 : c = '=' ∧ escape = false
  · rw [if_pos h5, if_pos h5]
    by_cases h5' : st.key = []
    · rw [if_pos h5', if_pos h5']
    · rw [if_neg h5', if_neg h5']
  rw [if_neg h5, if_neg h5]
  by_cases h6 : c = '[' ∧ escape = false
  · rw [if_pos h6, if_pos h6]
    by_cases h6' : first = false
    · rw [if_pos h6', if_pos h6']
    · rw [if_neg h6', if_neg h6']
  rw [if_neg h6, if_neg h6]
  by_cases h7 : c = ']' ∧ escape = false
  · rw [if_pos h7, if_pos h7]
    by_cases h7' : st.current_token_type ≠ TokenType.SECTION
    · rw [if_pos h7', if_pos h7']
    · rw [if_neg h7', if_neg h7']
      by_cases h7'' : st.sec = []
      · rw [if_pos h7'', if_pos h7'']
      · rw [if_neg h7'', if_neg h7'']
  rw [if_neg h7, if_neg h7]
  by_cases h8 : c = '\\'
  · rw [if_pos h8, if_pos h8]
    by_cases h8' : escape = true
    · rw [if_pos h8', if_pos h8']
    · rw [if_neg h8', if_neg h8']
  rw [if_neg h8, if_neg h8]

theorem loopStep_newline (st : ReadState) (escape read first : Bool) (c : Char)
    (h : loopStep st escape read first c ≠ Step.endLine) : c ≠ '\n' := by
  intro hc
  apply h
  unfold loopStep
  simp [hc]

theorem getline_append (cs X : List Char) (h : '\n' ∈ cs) :
    (getline cs).good = true ∧ (∃ pre, cs = pre ++ (getline cs).rest) ∧
      getline (cs ++ X) = { rest := (getline cs).rest ++ X, good := true } := by
  induction cs with
  | nil => simp at h
  | cons c cs ih =>
    rw [List.cons_append, getline, getline]
    split
    · exact ⟨rfl, ⟨[c], rfl⟩, rfl⟩
    · rename_i hc
      have hmem : '\n' ∈ cs := by
        rcases List.mem_cons.mp h with h' | h'
        · exact absurd h'.symm hc
        · exact h'
      obtain ⟨hg, ⟨pre, hpre⟩, heq⟩ := ih hmem
      exact ⟨hg, ⟨c :: pre, congrArg (List.cons c) hpre⟩, heq⟩

theorem lineEnd_append (read : Bool) (st : ReadState) (c : Char) (cs X : List Char) :
    (lineEnd read st { rest := cs, good := true }).2.2.good = true ∧
      (∃ pre, c :: cs = pre ++ (lineEnd read st { rest := cs, good := true }).2.2.rest) ∧
      lineEnd read st { rest := cs ++ X, good := true } =
        ((lineEnd read st { rest := cs, good := true }).1,
          (lineEnd read st { rest := cs, good := true }).2.1,
          { rest := (lineEnd read st { rest := cs, good := true }).2.2.rest ++ X,
            good := true }) := by
  rw [lineEnd_file]
  refine ⟨rfl, ⟨[c], rfl⟩, ?_⟩
  unfold lineEnd
  split <;> rfl

/-- When the text holds a newline, what follows the text is not looked at by the scan of
the first line: it stays in the stream. -/
theorem readLoop_append (cs X : List Char) (st : ReadState) (escape read first : Bool)
    (h : '\n' ∈ cs) :
    (readLoop st escape read first cs).2.2.good = true ∧
      (∃ pre, cs = pre ++ (readLoop st escape read first cs).2.2.rest) ∧
      readLoop st escape read first (cs ++ X) =
        ((readLoop st escape read first cs).1, (readLoop st escape read first cs).2.1,
          { rest := (readLoop st escape read first cs).2.2.rest ++ X, good := true }) := by
  induction cs generalizing st escape read first with
  | nil => simp at h
  | cons c cs ih =>
    rw [List.cons_append, readLoop_cons, readLoop_cons]
    cases hs : loopStep st escape read first c with
    | endLine => exact lineEnd_append read st c cs X
    | stop o => exact ⟨rfl, ⟨[c], rfl⟩, rfl⟩
    | comment =>
      have hc := loopStep_newline st escape read first c (by rw [hs]; simp)
      have hmem : '\n' ∈ cs := by
        rcases List.mem_cons.mp h with h' | h'
        · exact absurd h'.symm hc
        · exact h'
      obtain ⟨hg, ⟨pre, hpre⟩, heq⟩ := getline_append cs X hmem
      exact ⟨hg, ⟨c :: pre, congrArg (List.cons c) hpre⟩, by simp only [heq]⟩
    | next st' e' r' f' =>
      have hc := loopStep_newline st escape read first c (by rw [hs]; simp)
      have hmem : '\n' ∈ cs := by
        rcases List.mem_cons.mp h with h' | h'
        · exact absurd h'.symm hc
        · exact h'
      obtain ⟨hg, ⟨pre, hpre⟩, heq⟩ := ih st' e' r' f' hmem
      exact ⟨hg, ⟨c :: pre, congrArg (List.cons c) hpre⟩, heq⟩

theorem lineStart_mem (D : List Char) (h : lineStart D) (hne : D ≠ []) : '\n' ∈ D := by
  rcases h with h | ⟨D0, h⟩
  · exact absurd h hne
  · rw [h]
    simp

theorem lineStart_suffix (pre D : List Char) (h : lineStart (pre ++ D)) : lineStart D := by
  rcases List.eq_nil_or_concat D with hD | ⟨L, b, hD⟩
  · exact Or.inl hD
  · rcases h with h | ⟨D0, h⟩
    · rw [hD] at h
      simp at h
    · right
      rw [List.concat_eq_append] at hD
      rw [hD, ← List.append_assoc] at h
      have hb := (List.append_inj' h rfl).2
      simp only [List.cons.injEq, and_true] at hb
      exact ⟨L, by rw [hD, hb]⟩

/-- The loop of `load` on a text that ends at a line boundary, followed by any text `X`:
either it throws within the text, whatever `X` is, or it reaches `X` at the start of an
iteration, with members that do not depend on `X` and the value buffer empty. -/
theorem loadLoop_prefix (D : List Char) (hD : lineStart D) (p : INIparser)
    (hp : p.m_read_state.val = []) :
    (∃ r k, ∀ (X : List Char) (n : Nat),
        loadLoop (n + k) { rest := D ++ X, good := true } p = some r) ∨
      (∃ p1 k, p1.m_read_state.val = [] ∧ ∀ (X : List Char) (n : Nat),
        loadLoop (n + k) { rest := D ++ X, good := true } p =
          loadLoop n { rest := X, good := true } p1) := by
  generalize hlen : D.length = len
  induction len using Nat.strong_induction_on generalizing D p with
  | _ len ih =>
    by_cases hne : D = []
    · right
      refine ⟨p, 0, hp, fun X n => ?_⟩
      rw [hne]
      rfl
    · have hmem := lineStart_mem D hD hne
      obtain ⟨hg, ⟨pre, hpre⟩, _⟩ := readLoop_append D []
        { p.m_read_state with current_token_type := TokenType.KEY } false false true hmem
      have heq : ∀ X, readLine { rest := D ++ X, good := true } p.m_read_state =
          ((readLine { rest := D, good := true } p.m_read_state).1,
            (readLine { rest := D, good := true } p.m_read_state).2.1,
            { rest := (readLine { rest := D, good := true } p.m_read_state).2.2.rest ++ X,
              good := true }) := fun X =>
        (readLoop_append D X
          { p.m_read_state with current_token_type := TokenType.KEY } false false true
          hmem).2.2
      have hlt : (readLine { rest := D, good := true } p.m_read_state).2.2.rest.length
          < len := by
        have hm := readLoop_measure D
          { p.m_read_state with current_token_type := TokenType.KEY } false false true
        unfold fstream.measure at hm
        rw [hg] at hm
        simp only [if_true] at hm
        rw [← hlen]
        exact hm
      have hD' : lineStart (readLine { rest := D, good := true } p.m_read_state).2.2.rest := by
        apply lineStart_suffix pre
        unfold readLine
        rw [← hpre]
        exact hD
      have hskip := readLine_skip_val { rest := D, good := true } p.m_read_state hp
      rcases hr : readLine { rest := D, good := true } p.m_read_state with ⟨o, st, f'⟩
      rw [hr] at heq hlt hD' hskip
      simp only at heq hlt hD' hskip
      rcases o with e | b
      · left
        refine ⟨{ outcome := Except.error e, parser := { p with m_read_state := st } }, 1,
          fun X n => ?_⟩
        exact loadLoop_error n _ p e st _ rfl (heq X)
      · cases b
        · rcases ih _ hlt f'.rest hD' { p with m_read_state := st } (hskip rfl) rfl with
            ⟨r, k, hk⟩ | ⟨p1, k, hp1, hk⟩
          · left
            refine ⟨r, k + 1, fun X n => ?_⟩
            rw [← Nat.add_assoc, loadLoop_skip (n + k) _ p st _ rfl (heq X)]
            exact hk X n
          · right
            refine ⟨p1, k + 1, hp1, fun X n => ?_⟩
            rw [← Nat.add_assoc, loadLoop_skip (n + k) _ p st _ rfl (heq X)]
            exact hk X n
        · rcases ih _ hlt f'.rest hD'
            { m_sections :=
                if st.current_token_type ≠ TokenType.SECTION then
                  store p.m_sections st.sec st.key st.val
                else p.m_sections
              m_read_state :=
                { st with key := [], val := [], current_token_type := TokenType.KEY } }
            rfl rfl with ⟨r, k, hk⟩ | ⟨p1, k, hp1, hk⟩
          · left
            refine ⟨r, k + 1, fun X n => ?_⟩
            rw [← Nat.add_assoc, loadLoop_commit (n + k) _ p st _ rfl (heq X)]
            exact hk X n
          · right
            refine ⟨p1, k + 1, hp1, fun X n => ?_⟩
            rw [← Nat.add_assoc, loadLoop_commit (n + k) _ p st _ rfl (heq X)]
            exact hk X n

theorem getline_eol (t R : List Char) (ht : '\n' ∉ t) (hR : isEol R) :
    getline (t ++ R) = eol R := by
  induction t with
  | nil =>
    rcases hR with h | ⟨R', h⟩ <;> subst h <;> simp [getline, eol]
  | cons c cs ih =>
    have hc : c ≠ '\n' := fun h => ht (by rw [h]; exact List.mem_cons_self _ _)
    rw [List.cons_append, getline, if_neg hc]
    exact ih (fun h => ht (List.mem_cons_of_mem _ h))

/-- A blank line, or blanks and a comment, scanned with an empty value buffer. -/
theorem readLine_inert (st : ReadState) (ws C R : List Char) (hval : st.val = [])
    (hws : ∀ c ∈ ws, isBlank c) (hC : C = [] ∨ ∃ t, C = ';' :: t ∧ '\n' ∉ t)
    (hR : isEol R) :
    readLine { rest := ws ++ (C ++ R), good := true } st =
      (Except.ok false, { st with current_token_type := TokenType.KEY }, eol R) := by
  unfold readLine
  rw [readLoop_blank _ _ _ _ _ _ hws (by simp)]
  rcases hC with h | ⟨t, h, ht⟩
  · subst h
    rw [List.nil_append, readLoop_eol _ _ _ _ _ hR]
    simp [lineEnd]
  · subst h
    rw [List.cons_append, readLoop]
    simp [hval, getline_eol t R ht hR]

theorem find_eq_none_iff {V : Type} (m : Map V) (a : Str) :
    Map.find m a = none ↔ ∀ e ∈ m, e.1 ≠ a := by
  induction m with
  | nil =>
    constructor
    · intro _ e he
      exact absurd he (List.not_mem_nil e)
    · intro _
      rfl
  | cons x m ih =>
    obtain ⟨k, w⟩ := x
    unfold Map.find
    by_cases hk : k = a
    · rw [if_pos hk]
      constructor
      · intro h
        exact absurd h (by simp)
      · intro h
        exact absurd hk (h (k, w) (List.mem_cons_self _ _))
    · rw [if_neg hk, ih]
      constructor
      · intro h e he
        rcases List.mem_cons.mp he with h' | h'
        · rw [h']
          exact hk
        · exact h e h'
      · intro h e he
        exact h e (List.mem_cons_of_mem _ he)

theorem getVal_none (p : INIparser) (s k : Str) (h : Map.find p.m_sections s = none) :
    getVal p s k = Except.error Error.SectionNotFound := by
  unfold getVal
  rw [h]

theorem getVal_some_none (p : INIparser) (s k : Str) (sect : Section)
    (h : Map.find p.m_sections s = some sect) (hk : Map.find sect k = none) :
    getVal p s k = Except.error Error.KeyNotFound := by
  unfold getVal
  rw [h]
  simp only
  rw [hk]

theorem getVal_some_some (p : INIparser) (s k v : Str) (sect : Section)
    (h : Map.find p.m_sections s = some sect) (hk : Map.find sect k = some v) :
    getVal p s k = Except.ok v := by
  unfold getVal
  rw [h]
  simp only
  rw [hk]

theorem loopStep_keyed (st : ReadState) (escape read first : Bool) (c : Char)
    (st' : ReadState) (e' r' f' : Bool) (h : st.keyed)
    (hs : loopStep st escape read first c = Step.next st' e' r' f') : st'.keyed := by
  unfold loopStep at hs
  by_cases h1 : c = '\n'
  · rw [if_pos h1] at hs
    exact absurd hs (by simp)
  rw [if_neg h1] at hs
  by_cases h2 : c = '\t' ∨ c = '\x0c' ∨ c = '\r' ∨ c = '\x0b'
  · rw [if_pos h2, Step.next.injEq] at hs
    rw [← hs.1]
    exact h
  rw [if_neg h2] at hs
  by_cases h3 : st.current_token_type ≠ TokenType.SECTION ∧ c = ' '
  · rw [if_pos h3, Step.next.injEq] at hs
    rw [← hs.1]
    exact h
  rw [if_neg h3] at hs
  by_cases h4 : c = ';' ∧ escape = false
  · rw [if_pos h4] at hs
    exact absurd hs (by simp)
  rw [if_neg h4] at hs
  by_cases h5 : c = '=' ∧ escape = false
  · rw [if_pos h5] at hs
    by_cases h5' : st.key = []
    · rw [if_pos h5'] at hs
      exact absurd hs (by simp)
    · rw [if_neg h5', Step.next.injEq] at hs
      rw [← hs.1]
      exact fun _ => h5'
  rw [if_neg h5] at hs
  by_cases h6 : c = '[' ∧ escape = false
  · rw [if_pos h6] at hs
    by_cases h6' : first = false
    · rw [if_pos h6'] at hs
      exact absurd hs (by simp)
    · rw [if_neg h6', Step.next.injEq] at hs
      rw [← hs.1]
      exact fun hv => h (Or.inl (by simpa using hv))
  rw [if_neg h6] at hs
  by_cases h7 : c = ']' ∧ escape = false
  · rw [if_pos h7] at hs
    by_cases h7' : st.current_token_type ≠ TokenType.SECTION
    · rw [if_pos h7'] at hs
      exact absurd hs (by simp)
    · rw [if_neg h7'] at hs
      by_cases h7'' : st.sec = []
      · rw [if_pos h7''] at hs
        exact absurd hs (by simp)
      · rw [if_neg h7''] at hs
        exact absurd hs (by simp)
  rw [if_neg h7] at hs
  by_cases h8 : c = '\\'
  · rw [if_pos h8] at hs
    by_cases h8' : escape = true
    · rw [if_pos h8', Step.next.injEq] at hs
      rw [← hs.1]
      exact keyed_append _ _ h
    · rw [if_neg h8', Step.next.injEq] at hs
      rw [← hs.1]
      exact h
  rw [if_neg h8, Step.next.injEq] at hs
  rw [← hs.1]
  exact keyed_append _ _ h

/-- Re-declaring a section merges on plain documents: in every plain document in which
the header `[s]` appears twice with another header `[t]` (and further headers other than
`[s]`) in between, after `load` a key declared under the second occurrence has its last
value there, and a key declared under the first occurrence and not under the second still
has its last value under the first. For every input at all, plain or not, a key that a
section holds at some iteration of the loop of `load` is still held when the loop ends. -/
theorem redeclared_section_merges (p0 : INIparser) (P A B C : List PLine) (s t : Str)
    (trailing : Bool)
    (hv : ∀ l ∈ P ++ PLine.header s :: (A ++ PLine.header t :: (B ++ PLine.header s :: C)),
      l.valid)
    (hts : t ≠ s) (hB : ∀ l ∈ B, l ≠ PLine.header s) :
    ∃ q, load p0 (some (document
          (P ++ PLine.header s :: (A ++ PLine.header t :: (B ++ PLine.header s :: C)))
          trailing)) = some { outcome := Except.ok (), parser := q } ∧
      (∀ k v, lastDecl C (some s) (some s) k = some v → get2 q s k = Except.ok v) ∧
      (∀ k v, lastDecl C (some s) (some s) k = none →
        lastDecl A (some s) (some s) k = some v → get2 q s k = Except.ok v) ∧
      (∀ (n : Nat) (file : fstream) (p : INIparser) (r : LoadResult) (s' k : Str),
        loadLoop n file p = some r → (lookup p.m_sections s' k).isSome = true →
        (lookup r.parser.m_sections s' k).isSome = true) := by
  have hBnone : ∀ k, lastDecl B (some t) (some s) k = none := fun k =>
    lastDecl_never B (some t) (some s) k (by simpa using hts)
      (fun n hn he => hB _ hn (by rw [Option.some.inj he]))
  refine ⟨_, load_document p0 _ trailing hv, ?_, ?_, loadLoop_keeps_keys⟩
  · intro k v h
    apply get2_applyLines
    rw [lastDecl_append_header, lastDecl_append_header, lastDecl_append_header, h]
  · intro k v hC hA
    apply get2_applyLines
    rw [lastDecl_append_header, lastDecl_append_header, lastDecl_append_header, hC,
      hBnone, hA]

/-- The merge on the plain document with `[s]`, `[t]`, `[s]`. -/
theorem redeclared_section_merges_witness :
    ∃ q, load fresh (some (document mergeLines false)) =
        some { outcome := Except.ok (), parser := q } ∧
      get2 q ['s'] ['b'] = Except.ok ['3'] ∧ get2 q ['s'] ['c'] = Except.ok ['4'] ∧
      get2 q ['s'] ['a'] = Except.ok ['1'] := by
  obtain ⟨q, hq, h1, h2, _⟩ := redeclared_section_merges fresh [PLine.kv ['g'] ['0']]
    [PLine.kv ['a'] ['1'], PLine.kv ['b'] ['2']] [PLine.kv ['a'] ['9']]
    [PLine.kv ['b'] ['3'], PLine.kv ['c'] ['4']] ['s'] ['t'] false (by decide) (by decide)
    (by decide)
  exact ⟨q, hq, h1 _ _ (by decide), h1 _ _ (by decide), h2 _ _ (by decide) (by decide)⟩

/-! ## Properties of the specification -/

/-- C1 (as stated, refuted). In the plain document `k = 1`, `[ ]`, `k = 2` the last line
`k = v` before any header has the value `1`, yet after `load` the query `get(k)` returns
`2`: the header `[ ]` names the default section itself. -/
theorem plain_round_trip_counterexample :
    (∀ l ∈ spaceHeaderLines, l.valid) ∧
      document spaceHeaderLines false = "k = 1\n[ ]\nk = 2".toList ∧
      lastDecl spaceHeaderLines none none ['k'] = some ['1'] ∧
      load fresh (some (document spaceHeaderLines false)) =
        some { outcome := Except.ok (), parser :=
          { m_sections := [([' '], [(['k'], ['2'])])],
            m_read_state := ⟨TokenType.KEY, [' '], [], []⟩ } } ∧
      get { m_sections := [([' '], [(['k'], ['2'])])],
            m_read_state := ⟨TokenType.KEY, [' '], [], []⟩ } ['k'] = Except.ok ['2'] := by
  refine ⟨by decide, by decide, by decide, ?_, by decide⟩
  decide!

/-- C1 (amended). For every plain document (header lines `[name]` and lines `k = v`,
with or without a final newline) `load` succeeds, and, reading the text before any header
as if it stood under a header `[ ]`, `get(s, k)` returns the `v` of the last line `k = v`
under a header `s`, `get(k)` is `get(" ", k)`, and `get(s, k')` fails with KeyNotFound for
a key never declared under a section `s` that has a line. When no header of the document
is `[ ]` this is the round trip as first stated: `get(k)` returns the `v` of the last line
`k = v` before any header. The four-line example document loads to the two sections of
the specification. -/
theorem plain_round_trip (p0 : INIparser) (ls : List PLine) (trailing : Bool)
    (hv : ∀ l ∈ ls, l.valid) :
    (∃ q, load p0 (some (document ls trailing)) = some { outcome := Except.ok (), parser := q } ∧
      (∀ s k v, lastDecl (PLine.header [' '] :: ls) none (some s) k = some v →
        get2 q s k = Except.ok v) ∧
      (∀ k, get q k = get2 q [' '] k) ∧
      (∀ s k, declares (PLine.header [' '] :: ls) none (some s) = true →
        lastDecl (PLine.header [' '] :: ls) none (some s) k = none →
        get2 q s k = Except.error Error.KeyNotFound) ∧
      ((∀ l ∈ ls, l ≠ PLine.header [' ']) →
        (∀ s k v, lastDecl ls none (some s) k = some v → get2 q s k = Except.ok v) ∧
        (∀ k v, lastDecl ls none none k = some v → get q k = Except.ok v) ∧
        (∀ s k, declares ls none (some s) = true → lastDecl ls none (some s) k = none →
          get2 q s k = Except.error Error.KeyNotFound))) ∧
    (∃ q, load p0 (some exampleDocument) = some { outcome := Except.ok (), parser := q } ∧
      q.m_sections = exampleSections ∧
      get q "default_key".toList = Except.ok "1".toList ∧
      get2 q "server".toList "port".toList = Except.ok "8080".toList ∧
      get2 q "server".toList "missing".toList = Except.error Error.KeyNotFound) := by
  constructor
  · obtain ⟨n, hn⟩ := loadLoop_document ls trailing fresh hv rfl rfl
    have hlook : ∀ s k, lookup (applyLines fresh ls).m_sections s k =
        lastDecl ls (some [' ']) (some s) k := by
      intro s k
      rw [lookup_applyLines]
      show (match lastDecl ls (some [' ']) (some s) k with
        | some v => some v
        | none => lookup [] s k) = _
      cases lastDecl ls (some [' ']) (some s) k <;> simp [lookup, Map.find]
    have hfind : ∀ s, (Map.find (applyLines fresh ls).m_sections s).isSome =
        declares ls (some [' ']) (some s) := by
      intro s
      rw [find_applyLines]
      simp [fresh, Map.find, ReadState.init]
    have hA : ∀ s k v, lastDecl ls (some [' ']) (some s) k = some v →
        get2 (applyLines fresh ls) s k = Except.ok v := by
      intro s k v h
      exact getVal_of_lookup _ s k v (by rw [hlook]; exact h)
    have hC : ∀ s k, declares ls (some [' ']) (some s) = true →
        lastDecl ls (some [' ']) (some s) k = none →
        get2 (applyLines fresh ls) s k = Except.error Error.KeyNotFound := by
      intro s k hd h
      exact getVal_keyNotFound _ s k (by rw [hfind]; exact hd) (by rw [hlook]; exact h)
    refine ⟨applyLines fresh ls, load_of_loadLoop n _ p0 _ hn, hA, fun k => rfl, hC, ?_⟩
    intro hns
    have hne : ∀ n, PLine.header n ∈ ls → n ≠ [' '] := by
      intro n hn' he
      exact hns _ hn' (by rw [he])
    refine ⟨?_, ?_, ?_⟩
    · intro s k v h
      by_cases hs : s = [' ']
      · subst hs
        rw [lastDecl_never ls none (some [' ']) k (by simp)
          (fun n hn' => by simp [hne n hn'])] at h
        exact absurd h (by simp)
      · apply hA
        rw [← lastDecl_congr ls none (some [' ']) (some s) (some s) k
          (by simp [Ne.symm hs]) (fun _ _ => Iff.rfl)]
        exact h
    · intro k v h
      apply hA
      rw [← lastDecl_congr ls none (some [' ']) none (some [' ']) k (by simp)
        (fun n hn' => by simp [hne n hn'])]
      exact h
    · intro s k hd h
      by_cases hs : s = [' ']
      · subst hs
        rw [declares_never ls none (some [' ']) (by simp)
          (fun n hn' => by simp [hne n hn'])] at hd
        exact absurd hd (by simp)
      · apply hC
        · rw [← declares_congr ls none (some [' ']) (some s) (some s)
            (by simp [Ne.symm hs]) (fun _ _ => Iff.rfl)]
          exact hd
        · rw [← lastDecl_congr ls none (some [' ']) (some s) (some s) k
            (by simp [Ne.symm hs]) (fun _ _ => Iff.rfl)]
          exact h
  · exact ⟨_, example_loads p0, rfl, by decide, by decide, by decide⟩

/-- The round trip at the example document without its comment. -/
theorem plain_round_trip_witness :
    ∃ q, load fresh (some (document exampleLines true)) =
        some { outcome := Except.ok (), parser := q } ∧
      get q "default_key".toList = Except.ok "1".toList ∧
      get2 q "server".toList "port".toList = Except.ok "8080".toList ∧
      get2 q "server".toList "missing".toList = Except.error Error.KeyNotFound := by
  obtain ⟨⟨q, hq, _, _, _, h⟩, _⟩ := plain_round_trip fresh exampleLines true (by decide)
  obtain ⟨h1, h2, h3⟩ := h (by decide)
  exact ⟨q, hq, h2 _ _ (by decide), h1 _ _ _ (by decide), h3 _ _ (by decide) (by decide)⟩

/-- C2. Escape round trip for keys and values: for every non-empty key `k` and every
value `v` without space, tab, CR, FF, VT or newline, scanning the line `esc(k)=esc(v)`
(ended by a newline or by the end of input) with empty key and value buffers returns
true with the buffers holding exactly the current section, `k` and `v`; in particular
the line `note = a\;b` yields the key `note` and the value `a;b`. -/
theorem escape_round_trip (st : ReadState) (k v R : List Char)
    (hkey : st.key = []) (hval : st.val = []) (hk : k ≠ [])
    (hkc : ∀ c ∈ k, wordChar c) (hvc : ∀ c ∈ v, wordChar c) (hR : isEol R) :
    readLine { rest := esc k ++ '=' :: (esc v ++ R), good := true } st =
        (Except.ok true,
          { current_token_type := TokenType.VAL, sec := st.sec, key := k, val := v },
          eol R) ∧
      readLine { rest := "note = a\\;b".toList, good := true } st =
        (Except.ok true,
          { current_token_type := TokenType.VAL, sec := st.sec, key := "note".toList,
            val := "a;b".toList },
          { rest := [], good := false }) := by
  constructor
  · have h := readLine_kv st [] k [] [] v [] R hkey hval hk hkc hvc
      (by simp) (by simp) (by simp) (by simp) hR
    simpa using h
  · have h := readLine_kv st [] "note".toList [' '] [' '] "a;b".toList [] [] hkey hval
      (by decide) (by decide) (by decide) (by simp) (by decide) (by decide) (by simp)
      (by decide)
    exact h

/-- The escape round trip at the key `a=b` and the value `[c]`. -/
theorem escape_round_trip_witness :
    readLine { rest := "a\\=b=\\[c\\]".toList, good := true } ReadState.init =
      (Except.ok true,
        { current_token_type := TokenType.VAL, sec := [' '], key := "a=b".toList,
          val := "[c]".toList },
        { rest := [], good := false }) :=
  (escape_round_trip ReadState.init "a=b".toList "[c]".toList [] rfl rfl (by decide)
    (by decide) (by decide) (by decide)).1

/-- C4 (the code at the failing input). In the document `[s]`, `a=1`, `[t]`, `c=;x`, `[s]`,
`b=2` the header `[s]` appears twice with `[t]` in between, yet after `load` the section
`s` does not hold the key `b` declared under its second occurrence: the comment line
`c=;x` returns false with `c` left in the key buffer, the loop of `load` goes on without
clearing it, and `b=2` is stored as `cb = 2`, so `get(s, b)` fails with "Key not found".
The key `a` of the first occurrence is kept. With `c=3` in place of `c=;x` the section
holds both `a` and `b`. -/
theorem redeclared_section_key_lost :
    load fresh (some "[s]\na=1\n[t]\nc=;x\n[s]\nb=2".toList) =
        some { outcome := Except.ok (), parser :=
          { m_sections := [(['s'], [(['a'], ['1']), ("cb".toList, ['2'])])],
            m_read_state := ⟨TokenType.KEY, ['s'], [], []⟩ } } ∧
      get2 { m_sections := [(['s'], [(['a'], ['1']), ("cb".toList, ['2'])])],
             m_read_state := ⟨TokenType.KEY, ['s'], [], []⟩ } ['s'] ['b'] =
        Except.error Error.KeyNotFound ∧
      get2 { m_sections := [(['s'], [(['a'], ['1']), ("cb".toList, ['2'])])],
             m_read_state := ⟨TokenType.KEY, ['s'], [], []⟩ } ['s'] ['a'] =
        Except.ok ['1'] ∧
      load fresh (some "[s]\na=1\n[t]\nc=3\n[s]\nb=2".toList) =
        some { outcome := Except.ok (), parser :=
          { m_sections := [(['s'], [(['a'], ['1']), (['b'], ['2'])]),
              (['t'], [(['c'], ['3'])])],
            m_read_state := ⟨TokenType.KEY, ['s'], [], []⟩ } } := by
  refine ⟨?_, ?_, ?_, ?_⟩ <;> decide!

/-- C5 (the code at the failing input). The document `a;` newline `=b` loads without
error and stores `a = b` in the default section: the comment line leaves `a` in the key
buffer, so the `=` that opens the second line does not find the key empty. The line `=b`
alone fails with "key can't be empty". -/
theorem stale_key_accepts_equals :
    load fresh (some "a;\n=b".toList) =
        some { outcome := Except.ok (), parser :=
          { m_sections := [([' '], [(['a'], ['b'])])],
            m_read_state := ⟨TokenType.KEY, [' '], [], []⟩ } } ∧
      load fresh (some "=b".toList) =
        some { outcome := Except.error (Error.InvalidToken Reason.keyEmpty), parser :=
          { m_sections := [], m_read_state := ⟨TokenType.KEY, [' '], [], []⟩ } } := by
  constructor <;> decide!

/-- C6. The line `key=` is legal: for every non-empty key `k` of ordinary non-blank
characters, the line `k=` followed only by discarded blanks up to the end of the line,
scanned with empty key and value buffers, raises no error and returns true with the
buffers holding the current section, `k` and the empty string; and after `load` of that
line `get(k)` returns the empty string. -/
theorem empty_value_legal (p0 : INIparser) (st : ReadState) (k ws R T : List Char)
    (hkey : st.key = []) (hval : st.val = []) (hk : k ≠ [])
    (hkc : ∀ c ∈ k, wordChar c ∧ ¬ isSpecial c) (hws : ∀ c ∈ ws, isBlank c)
    (hR : isEol R) (hT : T = [] ∨ T = ['\n']) :
    readLine { rest := k ++ '=' :: (ws ++ R), good := true } st =
        (Except.ok true,
          { current_token_type := TokenType.VAL, sec := st.sec, key := k, val := [] },
          eol R) ∧
      ∃ q, load p0 (some (k ++ '=' :: (ws ++ T))) =
          some { outcome := Except.ok (), parser := q } ∧
        q.m_sections = [([' '], [(k, [])])] ∧ get q k = Except.ok [] := by
  have hline : ∀ (st' : ReadState) (R' : List Char), st'.key = [] → st'.val = [] →
      isEol R' →
      readLine { rest := k ++ '=' :: (ws ++ R'), good := true } st' =
        (Except.ok true,
          { current_token_type := TokenType.VAL, sec := st'.sec, key := k, val := [] },
          eol R') := by
    intro st' R' h1 h2 h3
    have h := readLine_kv st' [] k [] ws [] [] R' h1 h2 hk (fun c hc => (hkc c hc).1)
      (by simp) (by simp) (by simp) hws (by simp) h3
    rw [esc_plain k (fun c hc => (hkc c hc).2)] at h
    simpa [esc] using h
  refine ⟨hline st R hkey hval hR, ?_⟩
  have hrun : loadLoop 2 { rest := k ++ '=' :: (ws ++ T), good := true } fresh =
      some { outcome := Except.ok (), parser :=
        { m_sections := [([' '], [(k, [])])],
          m_read_state :=
            { current_token_type := TokenType.KEY, sec := [' '], key := [], val := [] } } } := by
    rw [loadLoop_commit 1 _ fresh _ _ rfl (hline _ T rfl rfl
      (by rcases hT with h | h <;> subst h <;> decide))]
    rcases hT with h | h <;> subst h
    · simp [eol, loadLoop_done, store, Map.assign, Map.find, fresh, ReadState.init]
    · simp [eol, loadLoop_nil, store, Map.assign, Map.find, fresh, ReadState.init]
  refine ⟨_, load_of_loadLoop 2 _ p0 _ hrun, rfl, ?_⟩
  simp [get, getVal, Map.find]

/-- The line `key=` followed by a space, a tab and a carriage return. -/
theorem empty_value_legal_witness :
    ∃ q, load fresh (some "key= \t\r\n".toList) =
        some { outcome := Except.ok (), parser := q } ∧
      get q "key".toList = Except.ok [] := by
  obtain ⟨q, hq, _, hg⟩ := (empty_value_legal fresh ReadState.init "key".toList
    " \t\r".toList [] ['\n'] rfl rfl (by decide) (by decide) (by decide) (by decide)
    (Or.inr rfl)).2
  exact ⟨q, hq, hg⟩

/-- C7 (the code at the failing input). The line `[[a]` is scanned without error: the
second `[` comes after a character that was read, yet `first` is still set, so it only
resets the section buffer, and the line names the section `a`. The line `x[y]` fails
with "'[' must be the first character in a line". -/
theorem second_open_bracket_accepted :
    readLine { rest := "[[a]".toList, good := true } ReadState.init =
        (Except.ok false, ⟨TokenType.SECTION, ['a'], [], []⟩, { rest := [], good := true }) ∧
      load fresh (some "[[a]\nk=v".toList) =
        some { outcome := Except.ok (), parser :=
          { m_sections := [(['a'], [(['k'], ['v'])])],
            m_read_state := ⟨TokenType.KEY, ['a'], [], []⟩ } } ∧
      load fresh (some "x[y]".toList) =
        some { outcome := Except.error (Error.InvalidToken Reason.bracketNotFirst), parser :=
          { m_sections := [], m_read_state := ⟨TokenType.KEY, [' '], ['x'], []⟩ } } := by
  refine ⟨?_, ?_, ?_⟩ <;> decide!

/-- C8 (as stated, refuted). The document `[abc`, an unterminated section header, loads
without error: nothing is stored and `abc` is the current section. -/
theorem open_header_counterexample :
    load fresh (some "[abc".toList) =
      some { outcome := Except.ok (), parser :=
        { m_sections := [], m_read_state := ⟨TokenType.KEY, "abc".toList, [], []⟩ } } := by
  decide!

/-- C8 (amended). An unterminated section header is accepted: for every non-empty name
`s` without tab, CR, FF, VT or newline, the line `[esc(s)` that reaches the end of the
line or of the input raises no error; `readLine` returns true with the target still
section and the section buffer holding `s`, `load` stores no entry for it and clears the
key and value buffers, and a following line `esc(k)=esc(v)` is stored under `s`. -/
theorem open_header_accepted (p0 p : INIparser) (s k v R T : List Char) (n : Nat)
    (_hs : s ≠ []) (hsc : ∀ c ∈ s, nameChar c) (hR : isEol R) (hk : k ≠ [])
    (hkc : ∀ c ∈ k, wordChar c) (hvc : ∀ c ∈ v, wordChar c) (hT : T = [] ∨ T = ['\n']) :
    readLine { rest := '[' :: (esc s ++ R), good := true } p.m_read_state =
        (Except.ok true,
          { current_token_type := TokenType.SECTION, sec := s, key := p.m_read_state.key,
            val := p.m_read_state.val },
          eol R) ∧
      loadLoop (n + 1) { rest := '[' :: (esc s ++ R), good := true } p =
        loadLoop n (eol R)
          { m_sections := p.m_sections,
            m_read_state :=
              { current_token_type := TokenType.KEY, sec := s, key := [], val := [] } } ∧
      ∃ q, load p0 (some ('[' :: (esc s ++ '\n' :: (esc k ++ '=' :: (esc v ++ T))))) =
          some { outcome := Except.ok (), parser := q } ∧
        q.m_sections = [(s, [(k, v)])] ∧ get2 q s k = Except.ok v := by
  have hline : ∀ (st : ReadState) (R' : List Char), isEol R' →
      readLine { rest := '[' :: (esc s ++ R'), good := true } st =
        (Except.ok true,
          { current_token_type := TokenType.SECTION, sec := s, key := st.key, val := st.val },
          eol R') := by
    intro st R' hR'
    have h := readLine_open_header st [] s R' hsc (by simp) hR'
    simpa using h
  refine ⟨hline _ R hR, ?_, ?_⟩
  · rw [loadLoop_commit n _ p _ _ rfl (hline _ R hR)]
    simp
  · have hkv := readLine_kv
      { current_token_type := TokenType.KEY, sec := s, key := [], val := [] }
      [] k [] [] v [] T rfl rfl hk hkc hvc (by simp) (by simp) (by simp) (by simp)
      (by rcases hT with h | h <;> subst h <;> decide)
    simp only [List.nil_append] at hkv
    have hrun : loadLoop 3
        { rest := '[' :: (esc s ++ '\n' :: (esc k ++ '=' :: (esc v ++ T))), good := true }
        fresh =
        some { outcome := Except.ok (), parser :=
          { m_sections := [(s, [(k, v)])],
            m_read_state :=
              { current_token_type := TokenType.KEY, sec := s, key := [], val := [] } } } := by
      rw [loadLoop_commit 2 _ fresh _ _ rfl (hline _ _ (Or.inr ⟨_, rfl⟩))]
      simp only [eol, ne_eq, not_true_eq_false, if_false]
      rw [loadLoop_commit 1 _ _ _ _ rfl hkv]
      rcases hT with h | h <;> subst h
      · simp [eol, loadLoop_done, store, Map.assign, Map.find, fresh]
      · simp [eol, loadLoop_nil, store, Map.assign, Map.find, fresh]
    refine ⟨_, load_of_loadLoop 3 _ p0 _ hrun, rfl, ?_⟩
    simp [get2, getVal, Map.find]

/-- The unterminated header `[abc` followed by the line `k=v`. -/
theorem open_header_accepted_witness :
    ∃ q, load fresh (some "[abc\nk=v\n".toList) =
        some { outcome := Except.ok (), parser := q } ∧
      q.m_sections = [("abc".toList, [(['k'], ['v'])])] ∧
      get2 q "abc".toList ['k'] = Except.ok ['v'] :=
  (open_header_accepted fresh fresh "abc".toList ['k'] ['v'] [] ['\n'] 0 (by decide)
    (by decide) (by decide) (by decide) (by decide) (by decide) (Or.inr rfl)).2.2

/-- C9. Close-bracket rule: when the scanner reaches an unescaped `]` it fails with
InvalidToken if the accumulation target is not section, fails with InvalidToken if the
section buffer is empty, and otherwise returns false at once, leaving the buffers as
accumulated and the rest of the line in the stream. The lines `a]` and `k=v]` fail with
"unexpected character", the line `[]` with "section name cannot be empty". -/
theorem close_bracket_rule (st : ReadState) (read first : Bool) (cs : List Char) :
    (st.current_token_type ≠ TokenType.SECTION →
        readLoop st false read first (']' :: cs) =
          (Except.error (Error.InvalidToken Reason.unexpectedClose), st,
            { rest := cs, good := true })) ∧
      (st.current_token_type = TokenType.SECTION → st.sec = [] →
        readLoop st false read first (']' :: cs) =
          (Except.error (Error.InvalidToken Reason.sectionEmpty), st,
            { rest := cs, good := true })) ∧
      (st.current_token_type = TokenType.SECTION → st.sec ≠ [] →
        readLoop st false read first (']' :: cs) =
          (Except.ok false, st, { rest := cs, good := true })) ∧
      (readLine { rest := "a]".toList, good := true } st).1 =
        Except.error (Error.InvalidToken Reason.unexpectedClose) ∧
      (readLine { rest := "k=v]".toList, good := true } st).1 =
        Except.error (Error.InvalidToken Reason.unexpectedClose) ∧
      (readLine { rest := "[]".toList, good := true } st).1 =
        Except.error (Error.InvalidToken Reason.sectionEmpty) := by
  refine ⟨?_, ?_, ?_, ?_, ?_, ?_⟩
  · intro h
    rw [readLoop]
    simp [h]
  · intro h hs
    rw [readLoop]
    simp [h, hs]
  · intro h hs
    rw [readLoop]
    simp [h, hs]
  · simp [readLine, readLoop, ReadState.append]
  · simp [readLine, readLoop, ReadState.append]
  · simp [readLine, readLoop]

/-- The three cases of the close-bracket rule at concrete states. -/
theorem close_bracket_rule_witness :
    readLoop ⟨TokenType.VAL, [' '], ['k'], ['v']⟩ false true false (']' :: ['x']) =
        (Except.error (Error.InvalidToken Reason.unexpectedClose),
          ⟨TokenType.VAL, [' '], ['k'], ['v']⟩, { rest := ['x'], good := true }) ∧
      readLoop ⟨TokenType.SECTION, [], [], []⟩ false true true (']' :: ['x']) =
        (Except.error (Error.InvalidToken Reason.sectionEmpty),
          ⟨TokenType.SECTION, [], [], []⟩, { rest := ['x'], good := true }) ∧
      readLoop ⟨TokenType.SECTION, ['s'], [], []⟩ false true false (']' :: ['x']) =
        (Except.ok false, ⟨TokenType.SECTION, ['s'], [], []⟩,
          { rest := ['x'], good := true }) ∧
      (readLine { rest := "k=v]".toList, good := true } ReadState.init).1 =
        Except.error (Error.InvalidToken Reason.unexpectedClose) :=
  ⟨(close_bracket_rule ⟨TokenType.VAL, [' '], ['k'], ['v']⟩ true false ['x']).1 (by decide),
    (close_bracket_rule ⟨TokenType.SECTION, [], [], []⟩ true true ['x']).2.1 rfl rfl,
    (close_bracket_rule ⟨TokenType.SECTION, ['s'], [], []⟩ true false ['x']).2.2.1 rfl
      (by decide),
    (close_bracket_rule ReadState.init false true []).2.2.2.2.1⟩

/-- C10 (as stated, refuted). The document `abc`, a bare word with no `=`, loads without
error and stores the key `abc` with the empty value in the default section. -/
theorem bare_word_counterexample :
    load fresh (some "abc".toList) =
      some { outcome := Except.ok (), parser :=
        { m_sections := [([' '], [("abc".toList, [])])],
          m_read_state := ⟨TokenType.KEY, [' '], [], []⟩ } } := by
  decide!

/-- C10 (amended). A line is rejected as incomplete only when nothing was accumulated:
scanned with empty key and value buffers, a line whose only meaningful character is one
backslash (among discarded blanks) makes `readLine`, and `load`, fail with "Uncomplete
line"; a bare word `w` of ordinary non-blank characters is not rejected: `readLine`
returns true with the key buffer holding `w` and the value buffer empty, and after `load`
`get(w)` returns the empty string. -/
theorem incomplete_line_rule (p0 : INIparser) (st : ReadState) (ws1 ws2 w R T : List Char)
    (hkey : st.key = []) (hval : st.val = [])
    (h1 : ∀ c ∈ ws1, isBlank c) (h2 : ∀ c ∈ ws2, isBlank c) (hR : isEol R)
    (hw : w ≠ []) (hwc : ∀ c ∈ w, wordChar c ∧ ¬ isSpecial c) (hT : T = [] ∨ T = ['\n']) :
    readLine { rest := ws1 ++ '\\' :: (ws2 ++ R), good := true } st =
        (Except.error Error.UncompleteLine,
          { current_token_type := TokenType.KEY, sec := st.sec, key := [], val := [] },
          eol R) ∧
      load p0 (some (ws1 ++ '\\' :: (ws2 ++ R))) =
        some { outcome := Except.error Error.UncompleteLine, parser :=
          { m_sections := [],
            m_read_state :=
              { current_token_type := TokenType.KEY, sec := [' '], key := [], val := [] } } } ∧
      readLine { rest := w ++ R, good := true } st =
        (Except.ok true,
          { current_token_type := TokenType.KEY, sec := st.sec, key := w, val := [] },
          eol R) ∧
      ∃ q, load p0 (some (w ++ T)) = some { outcome := Except.ok (), parser := q } ∧
        q.m_sections = [([' '], [(w, [])])] ∧ get q w = Except.ok [] := by
  have hslash : ∀ (st' : ReadState), st'.key = [] → st'.val = [] →
      readLine { rest := ws1 ++ '\\' :: (ws2 ++ R), good := true } st' =
        (Except.error Error.UncompleteLine,
          { current_token_type := TokenType.KEY, sec := st'.sec, key := [], val := [] },
          eol R) := by
    intro st' hk' hv'
    unfold readLine
    rw [readLoop_blank _ _ _ _ _ _ h1 (by simp)]
    rw [readLoop]
    simp only [Char.reduceEq, false_or, or_self, false_and, and_false, if_false, true_and,
      if_true, ne_eq, Bool.false_eq_true]
    rw [readLoop_blank _ _ _ _ _ _ h2 (by simp)]
    rw [readLoop_eol _ _ _ _ _ hR]
    simp [lineEnd, hk', hv']
  have hword : ∀ (st' : ReadState) (R' : List Char), st'.key = [] → st'.val = [] →
      isEol R' →
      readLine { rest := w ++ R', good := true } st' =
        (Except.ok true,
          { current_token_type := TokenType.KEY, sec := st'.sec, key := w, val := [] },
          eol R') := by
    intro st' R' hk' hv' hR'
    unfold readLine
    have he := readLoop_esc w { st' with current_token_type := TokenType.KEY } false true R'
      (fun c hc => ⟨(hwc c hc).1.1, fun _ => (hwc c hc).1.2⟩)
    rw [esc_plain w (fun c hc => (hwc c hc).2)] at he
    rw [he, appendAll_key _ _ rfl, readLoop_eol _ _ _ _ _ hR']
    have hw' : w.isEmpty = false := by cases w <;> simp_all
    simp [lineEnd, hk', hv', hw, hw']
  refine ⟨hslash st hkey hval, ?_, hword st R hkey hval hR, ?_⟩
  · apply load_of_loadLoop 1
    rw [loadLoop_error 0 _ fresh _ _ _ rfl (hslash fresh.m_read_state rfl rfl)]
    rfl
  · have hrun : loadLoop 2 { rest := w ++ T, good := true } fresh =
        some { outcome := Except.ok (), parser :=
          { m_sections := [([' '], [(w, [])])],
            m_read_state :=
              { current_token_type := TokenType.KEY, sec := [' '], key := [],
                val := [] } } } := by
      rw [loadLoop_commit 1 _ fresh _ _ rfl (hword _ T rfl rfl
        (by rcases hT with h | h <;> subst h <;> decide))]
      rcases hT with h | h <;> subst h
      · simp [eol, loadLoop_done, store, Map.assign, Map.find, fresh, ReadState.init]
      · simp [eol, loadLoop_nil, store, Map.assign, Map.find, fresh, ReadState.init]
    refine ⟨_, load_of_loadLoop 2 _ p0 _ hrun, rfl, ?_⟩
    simp [get, getVal, Map.find]

/-- A lone backslash between blanks, and the bare word `word`. -/
theorem incomplete_line_rule_witness :
    load fresh (some " \\\t\nk=v".toList) =
        some { outcome := Except.error Error.UncompleteLine, parser :=
          { m_sections := [],
            m_read_state :=
              { current_token_type := TokenType.KEY, sec := [' '], key := [], val := [] } } } ∧
      ∃ q, load fresh (some "word\n".toList) = some { outcome := Except.ok (), parser := q } ∧
        q.m_sections = [([' '], [("word".toList, [])])] ∧
        get q "word".toList = Except.ok [] :=
  ⟨(incomplete_line_rule fresh ReadState.init [' '] ['\t'] "word".toList "\nk=v".toList
      ['\n'] rfl rfl (by decide) (by decide) (by decide) (by decide) (by decide)
      (Or.inr rfl)).2.1,
    (incomplete_line_rule fresh ReadState.init [' '] ['\t'] "word".toList "\nk=v".toList
      ['\n'] rfl rfl (by decide) (by decide) (by decide) (by decide) (by decide)
      (Or.inr rfl)).2.2.2⟩

/-- C11. Comment-only and blank lines are inert: a line of blanks (spaces, tabs, CR, FF,
VT), optionally followed by an unescaped `;` and comment text, scanned with the value
buffer empty as `load` leaves it at every line start, raises no error and returns false
with the buffers untouched; the loop of `load` stores no entry for it; and `load` of a
document with such a line inserted at a line boundary gives the same result as `load` of
the document without it. -/
theorem comment_and_blank_lines_inert (p0 p : INIparser) (D1 D2 ws C R : List Char)
    (n : Nat) (hws : ∀ c ∈ ws, isBlank c) (hC : C = [] ∨ ∃ t, C = ';' :: t ∧ '\n' ∉ t)
    (hR : isEol R) (hval : p.m_read_state.val = []) (hD1 : lineStart D1) :
    readLine { rest := ws ++ (C ++ R), good := true } p.m_read_state =
        (Except.ok false,
          { p.m_read_state with current_token_type := TokenType.KEY }, eol R) ∧
      loadLoop (n + 1) { rest := ws ++ (C ++ '\n' :: D2), good := true } p =
        loadLoop n { rest := D2, good := true } p ∧
      load p0 (some (D1 ++ (ws ++ (C ++ '\n' :: D2)))) = load p0 (some (D1 ++ D2)) := by
  have hstep : ∀ (q : INIparser) (m : Nat), q.m_read_state.val = [] →
      loadLoop (m + 1) { rest := ws ++ (C ++ '\n' :: D2), good := true } q =
        loadLoop m { rest := D2, good := true } q := by
    intro q m hq
    rw [loadLoop_skip m _ q _ _ rfl
      (readLine_inert q.m_read_state ws C ('\n' :: D2) hq hws hC (Or.inr ⟨D2, rfl⟩))]
    exact loadLoop_type m { rest := D2, good := true } q TokenType.KEY rfl
  refine ⟨readLine_inert _ ws C R hval hws hC hR, hstep p n hval, ?_⟩
  rcases loadLoop_prefix D1 hD1 fresh rfl with ⟨r, k, hk⟩ | ⟨p1, k, hp1, hk⟩
  · exact load_congr p0 p0 _ _ (0 + k) (0 + k) r (hk _ 0) (hk _ 0)
  · obtain ⟨r, hr⟩ := loadLoop_total (D2.length + 1) { rest := D2, good := true } p1
      (by simp [fstream.measure])
    refine load_congr p0 p0 _ _ (D2.length + 1 + 1 + k) (D2.length + 1 + k) r ?_ ?_
    · rw [hk, hstep p1 _ hp1]
      exact hr
    · rw [hk]
      exact hr

/-- The line ` ; note` inserted after the first line of the example document. -/
theorem comment_and_blank_lines_inert_witness :
    load fresh (some "default_key = 1\n \t; note\n[server]\nport = 8080\n".toList) =
      load fresh (some "default_key = 1\n[server]\nport = 8080\n".toList) :=
  (comment_and_blank_lines_inert fresh fresh "default_key = 1\n".toList
    "[server]\nport = 8080\n".toList " \t".toList "; note".toList [] 0 (by decide)
    (Or.inr ⟨" note".toList, rfl, by decide⟩) (by decide) rfl
    (Or.inr ⟨"default_key = 1".toList, rfl⟩)).2.2

/-- C12. Query contract: for every state of the parser, `get(section, key)` fails with
"Section not found" exactly when the document has no section of that name, fails with
"Key not found" exactly when the section exists and has no entry for that key, and
otherwise returns the stored value; `get(key)` is `get(" ", key)`. -/
theorem query_contract (p : INIparser) (s k : Str) :
    (get2 p s k = Except.error Error.SectionNotFound ↔ ∀ e ∈ p.m_sections, e.1 ≠ s) ∧
      (get2 p s k = Except.error Error.KeyNotFound ↔
        ∃ sect, Map.find p.m_sections s = some sect ∧ ∀ e ∈ sect, e.1 ≠ k) ∧
      (∀ v, get2 p s k = Except.ok v ↔
        ∃ sect, Map.find p.m_sections s = some sect ∧ Map.find sect k = some v) ∧
      get p k = get2 p [' '] k := by
  have hcases : (Map.find p.m_sections s = none ∧
        get2 p s k = Except.error Error.SectionNotFound) ∨
      (∃ sect, Map.find p.m_sections s = some sect ∧ Map.find sect k = none ∧
        get2 p s k = Except.error Error.KeyNotFound) ∨
      (∃ sect v, Map.find p.m_sections s = some sect ∧ Map.find sect k = some v ∧
        get2 p s k = Except.ok v) := by
    cases hs : Map.find p.m_sections s with
    | none => exact Or.inl ⟨rfl, getVal_none p s k hs⟩
    | some sect =>
      cases hk : Map.find sect k with
      | none => exact Or.inr (Or.inl ⟨sect, rfl, hk, getVal_some_none p s k sect hs hk⟩)
      | some v => exact Or.inr (Or.inr ⟨sect, v, rfl, hk, getVal_some_some p s k v sect hs hk⟩)
  refine ⟨?_, ?_, ?_, rfl⟩
  · rw [← find_eq_none_iff]
    rcases hcases with ⟨h1, h2⟩ | ⟨sect, h1, _, h2⟩ | ⟨sect, v, h1, _, h2⟩
    · exact ⟨fun _ => h1, fun _ => h2⟩
    · rw [h1, h2]
      simp
    · rw [h1, h2]
      simp
  · rcases hcases with ⟨h1, h2⟩ | ⟨sect, h1, h3, h2⟩ | ⟨sect, v, h1, h3, h2⟩
    · rw [h1, h2]
      simp
    · refine ⟨fun _ => ⟨sect, h1, (find_eq_none_iff sect k).mp h3⟩, fun _ => h2⟩
    · rw [h2]
      constructor
      · intro h
        exact absurd h (by simp)
      · rintro ⟨sect', h4, h5⟩
        rw [h1, Option.some.injEq] at h4
        rw [← h4, ← find_eq_none_iff, h3] at h5
        exact absurd h5 (by simp)
  · intro v'
    rcases hcases with ⟨h1, h2⟩ | ⟨sect, h1, h3, h2⟩ | ⟨sect, v, h1, h3, h2⟩
    · rw [h1, h2]
      simp
    · rw [h2]
      constructor
      · intro h
        exact absurd h (by simp)
      · rintro ⟨sect', h4, h5⟩
        rw [h1, Option.some.injEq] at h4
        rw [← h4, h3] at h5
        exact absurd h5 (by simp)
    · rw [h2]
      constructor
      · intro h
        rw [Except.ok.injEq] at h
        exact ⟨sect, h1, by rw [h3, h]⟩
      · rintro ⟨sect', h4, h5⟩
        rw [h1, Option.some.injEq] at h4
        rw [← h4, h3, Option.some.injEq] at h5
        rw [h5]

/-- The three outcomes of a query on the document of the example. -/
theorem query_contract_witness :
    get2 ⟨exampleSections, ReadState.init⟩ "client".toList "port".toList =
        Except.error Error.SectionNotFound ∧
      get2 ⟨exampleSections, ReadState.init⟩ "server".toList "missing".toList =
        Except.error Error.KeyNotFound ∧
      get2 ⟨exampleSections, ReadState.init⟩ "server".toList "port".toList =
        Except.ok "8080".toList :=
  ⟨(query_contract ⟨exampleSections, ReadState.init⟩ "client".toList "port".toList).1.mpr
      (by decide),
    (query_contract ⟨exampleSections, ReadState.init⟩ "server".toList "missing".toList).2.1.mpr
      ⟨[("host".toList, "localhost".toList), ("port".toList, "8080".toList)],
        by decide, by decide⟩,
    ((query_contract ⟨exampleSections, ReadState.init⟩ "server".toList
      "port".toList).2.2.1 "8080".toList).mpr
      ⟨[("host".toList, "localhost".toList), ("port".toList, "8080".toList)],
        by decide, by decide⟩⟩

/-- C13. The function `load` replaces previous content: for every pair of readable
sources `A` and `B`, `load(B)` on the parser that a `load(A)` has left, whether that
returned or threw, returns, and its result (the outcome, the document and the scan state)
is the result of `load(B)` on any other parser; after `a=1` no key survives a `load` of
`b=2`. -/
theorem load_replaces_content (p0 p1 : INIparser) (A B : List Char) (rA : LoadResult)
    (_hA : load p0 (some A) = some rA) :
    (∃ r, load rA.parser (some B) = some r ∧ load p1 (some B) = some r) ∧
      ∃ rA', load p0 (some "a=1".toList) = some rA' ∧
        get rA'.parser ['a'] = Except.ok ['1'] ∧
        load rA'.parser (some "b=2".toList) =
          some { outcome := Except.ok (), parser :=
            { m_sections := [([' '], [(['b'], ['2'])])],
              m_read_state := ⟨TokenType.KEY, [' '], [], []⟩ } } := by
  constructor
  · obtain ⟨r, hr⟩ := load_total rA.parser B
    exact ⟨r, hr, hr⟩
  · refine ⟨⟨Except.ok (), ⟨[([' '], [(['a'], ['1'])])], ⟨TokenType.KEY, [' '], [], []⟩⟩⟩,
      ?_, by decide, ?_⟩
    · apply load_of_loadLoop 5
      decide!
    · apply load_of_loadLoop 5
      decide!

/-- A `load` after a `load` that threw. -/
theorem load_replaces_content_witness :
    ∃ r, load ⟨[], ⟨TokenType.KEY, [' '], [], []⟩⟩ (some "b=2".toList) = some r ∧
      load fresh (some "b=2".toList) = some r :=
  (load_replaces_content fresh fresh "=x".toList "b=2".toList
    { outcome := Except.error (Error.InvalidToken Reason.keyEmpty),
      parser := ⟨[], ⟨TokenType.KEY, [' '], [], []⟩⟩ } (by decide)).1

/-- C14. Control characters are invisible: for every document, deleting every tab,
carriage return, form feed and vertical tab from it leaves the result of `load`, the
document or the error, unchanged; `load` returns on both. -/
theorem control_characters_invisible (p0 : INIparser) (cs : List Char) :
    load p0 (some (stripControl cs)) = load p0 (some cs) ∧
      stripControl cs = cs.filter (fun c => decide (¬ isControl c)) ∧
      (∃ r, load p0 (some cs) = some r) ∧
      stripControl "[a\tb]\r\nk\x0c=\\\t;v ;\tc\x0b\r\n".toList =
        "[ab]\nk=\\;v ;c\n".toList ∧
      load p0 (some "[ab]\nk=\\;v ;c\n".toList) =
        load p0 (some "[a\tb]\r\nk\x0c=\\\t;v ;\tc\x0b\r\n".toList) := by
  have hex : stripControl "[a\tb]\r\nk\x0c=\\\t;v ;\tc\x0b\r\n".toList =
      "[ab]\nk=\\;v ;c\n".toList := by decide
  refine ⟨load_strip p0 p0 cs, ?_, load_total p0 cs, hex, ?_⟩
  · induction cs with
    | nil => rfl
    | cons c cs ih =>
      by_cases hc : c = '\t' ∨ c = '\x0c' ∨ c = '\r' ∨ c = '\x0b'
      · have hc' : isControl c := hc
        simp [stripControl, hc, hc', ih]
      · have hc' : ¬ isControl c := hc
        simp [stripControl, hc, hc', ih]
  · rw [← hex]
    exact load_strip p0 p0 _

/-- C15 (the code at the failing input). The document `[` newline `k=v` loads without
error and stores `k = v` in a section whose name is the empty string: the end of the line
is reached with the section buffer just emptied by `[`. The line `[]` fails with "section
name cannot be empty". -/
theorem empty_section_name_accepted :
    load fresh (some "[\nk=v".toList) =
        some { outcome := Except.ok (), parser :=
          { m_sections := [([], [(['k'], ['v'])])],
            m_read_state := ⟨TokenType.KEY, [], [], []⟩ } } ∧
      load fresh (some "[]".toList) =
        some { outcome := Except.error (Error.InvalidToken Reason.sectionEmpty), parser :=
          { m_sections := [], m_read_state := ⟨TokenType.SECTION, [], [], []⟩ } } := by
  constructor <;> decide!

/-- C16 (the code at the failing input). In the document `a;` newline `b=c` the comment
line returns false with `a` in the key buffer, the loop of `load` goes on without
clearing it, and the next line is stored under the key `ab`. -/
theorem key_buffer_bleeds :
    readLine { rest := "a;\nb=c".toList, good := true } fresh.m_read_state =
        (Except.ok false, ⟨TokenType.KEY, [' '], ['a'], []⟩,
          { rest := "b=c".toList, good := true }) ∧
      loadLoop 3 { rest := "a;\nb=c".toList, good := true } fresh =
        loadLoop 2 { rest := "b=c".toList, good := true }
          ⟨[], ⟨TokenType.KEY, [' '], ['a'], []⟩⟩ ∧
      load fresh (some "a;\nb=c".toList) =
        some { outcome := Except.ok (), parser :=
          { m_sections := [([' '], [("ab".toList, ['c'])])],
            m_read_state := ⟨TokenType.KEY, [' '], [], []⟩ } } := by
  refine ⟨?_, ?_, ?_⟩ <;> decide!

/-- C17 (as stated, refuted). The line `k=` yields the triple (default section, `k`,
empty value) at the end of the line, and `load` stores it; the same line followed by the
comment `;c` returns false at the semicolon, because the value buffer is empty, and
`load` stores nothing. -/
theorem trailing_comment_counterexample :
    readLine { rest := "k=".toList, good := true } fresh.m_read_state =
        (Except.ok true, ⟨TokenType.VAL, [' '], ['k'], []⟩, { rest := [], good := false }) ∧
      readLine { rest := "k=;c".toList, good := true } fresh.m_read_state =
        (Except.ok false, ⟨TokenType.VAL, [' '], ['k'], []⟩, { rest := [], good := false }) ∧
      load fresh (some "k=".toList) =
        some { outcome := Except.ok (), parser :=
          { m_sections := [([' '], [(['k'], [])])],
            m_read_state := ⟨TokenType.KEY, [' '], [], []⟩ } } ∧
      load fresh (some "k=;c".toList) =
        some { outcome := Except.ok (), parser :=
          { m_sections := [], m_read_state := ⟨TokenType.VAL, [' '], ['k'], []⟩ } } := by
  refine ⟨?_, ?_, ?_, ?_⟩ <;> decide!

/-- C17 (amended). A trailing comment does not change what a line with a non-empty value
means: when the scan of a line runs through the text `L` (no newline, no unescaped `;`,
nothing thrown) and stands after it unescaped on a target other than section, with a
character read and non-empty key and value buffers `k` and `v`, then the line `L` yields
the triple (section, `k`, `v`) at the end of the line, the line `L` followed by `;` and
comment text yields the same triple and leaves the same text in the stream, and the loop
of `load` stores the same entry for both. -/
theorem trailing_comment (p : INIparser) (st1 : ReadState) (first1 : Bool)
    (L C R : List Char) (n : Nat)
    (hrun : ∀ X, readLoop { p.m_read_state with current_token_type := TokenType.KEY }
      false false true (L ++ X) = readLoop st1 false true first1 X)
    (ht : st1.current_token_type ≠ TokenType.SECTION) (hk : st1.key ≠ [])
    (hv : st1.val ≠ []) (hC : '\n' ∉ C) (hR : isEol R) :
    readLine { rest := L ++ R, good := true } p.m_read_state =
        (Except.ok true, st1, eol R) ∧
      readLine { rest := L ++ ';' :: (C ++ R), good := true } p.m_read_state =
        (Except.ok true, st1, eol R) ∧
      loadLoop (n + 1) { rest := L ++ R, good := true } p =
        loadLoop n (eol R)
          { m_sections := store p.m_sections st1.sec st1.key st1.val,
            m_read_state := ⟨TokenType.KEY, st1.sec, [], []⟩ } ∧
      loadLoop (n + 1) { rest := L ++ ';' :: (C ++ R), good := true } p =
        loadLoop n (eol R)
          { m_sections := store p.m_sections st1.sec st1.key st1.val,
            m_read_state := ⟨TokenType.KEY, st1.sec, [], []⟩ } := by
  have h1 : readLine { rest := L ++ R, good := true } p.m_read_state =
      (Except.ok true, st1, eol R) := by
    unfold readLine
    rw [hrun R, readLoop_eol _ _ _ _ _ hR]
    simp [lineEnd, hv]
  have h2 : readLine { rest := L ++ ';' :: (C ++ R), good := true } p.m_read_state =
      (Except.ok true, st1, eol R) := by
    unfold readLine
    rw [hrun, readLoop]
    simp [hk, hv, getline_eol C R hC hR]
  refine ⟨h1, h2, ?_, ?_⟩
  · rw [loadLoop_commit n _ p _ _ rfl h1]
    simp [ht]
  · rw [loadLoop_commit n _ p _ _ rfl h2]
    simp [ht]

/-- The line `key = a\;b` with and without the comment `; note`. -/
theorem trailing_comment_witness :
    readLine { rest := "key = a\\;b".toList, good := true } fresh.m_read_state =
        (Except.ok true, ⟨TokenType.VAL, [' '], "key".toList, "a;b".toList⟩,
          { rest := [], good := false }) ∧
      readLine { rest := "key = a\\;b; note\n[s]".toList, good := true } fresh.m_read_state =
        (Except.ok true, ⟨TokenType.VAL, [' '], "key".toList, "a;b".toList⟩,
          { rest := "[s]".toList, good := true }) :=
  ⟨(trailing_comment fresh ⟨TokenType.VAL, [' '], "key".toList, "a;b".toList⟩
      false "key = a\\;b".toList " note".toList [] 0 (fun X => rfl) (by decide) (by decide)
      (by decide) (by decide) (by decide)).1,
    (trailing_comment fresh ⟨TokenType.VAL, [' '], "key".toList, "a;b".toList⟩
      false "key = a\\;b".toList " note".toList "\n[s]".toList 0 (fun X => rfl) (by decide)
      (by decide) (by decide) (by decide) (by decide)).2.1⟩

/-- C18. No empty key and no value without a key. The scan state is keyed (the value
buffer is non-empty, or the target is the value, only if the key buffer is non-empty)
when `load` starts; every step of the character loop (`loopStep`, which is the body of
the loop of `readLine`) keeps it keyed; so does every scan to its return or throw,
wherever the input ends; and for every input `load` returns, the state it leaves has a
non-empty value buffer only with a non-empty key buffer, and every entry it has written
into the document, also when it throws, has a non-empty key. -/
theorem no_value_without_key (p0 : INIparser) (input : List Char) :
    fresh.m_read_state.val = [] ∧
      (∀ (st : ReadState) (escape read first : Bool) (c : Char) (cs : List Char),
        readLoop st escape read first (c :: cs) =
          match loopStep st escape read first c with
          | Step.next st' e' r' f' => readLoop st' e' r' f' cs
          | Step.endLine => lineEnd read st { rest := cs, good := true }
          | Step.comment =>
            (Except.ok (decide (st.key ≠ []) && decide (st.val ≠ [])), st, getline cs)
          | Step.stop o => (o, st, { rest := cs, good := true })) ∧
      (∀ (st st' : ReadState) (escape read first e' r' f' : Bool) (c : Char), st.keyed →
        loopStep st escape read first c = Step.next st' e' r' f' → st'.keyed) ∧
      (∀ (st : ReadState) (escape read first : Bool) (cs : List Char), st.keyed →
        (readLoop st escape read first cs).2.1.keyed) ∧
      (∀ (file : fstream) (st : ReadState), (st.val ≠ [] → st.key ≠ []) →
        ((readLine file st).2.1.val ≠ [] → (readLine file st).2.1.key ≠ []) ∧
        ((readLine file st).1 = Except.ok true →
          (readLine file st).2.1.current_token_type ≠ TokenType.SECTION →
          (readLine file st).2.1.key ≠ [])) ∧
      ∃ r, load p0 (some input) = some r ∧
        (r.parser.m_read_state.val ≠ [] → r.parser.m_read_state.key ≠ []) ∧
        keysNonEmpty r.parser.m_sections := by
  refine ⟨rfl, readLoop_cons, ?_, ?_, ?_, ?_⟩
  · intro st st' escape read first e' r' f' c h hs
    exact loopStep_keyed st escape read first c st' e' r' f' h hs
  · intro st escape read first cs h
    exact (readLoop_keyed cs st escape read first h).1
  · intro file st h
    have hk := readLine_keyed file st h
    exact ⟨fun hv => hk.1 (Or.inl hv), hk.2⟩
  · obtain ⟨r, hr⟩ := load_total p0 input
    refine ⟨r, hr, ?_⟩
    have hr' : loadLoop (input.length + 2) { rest := input, good := true } fresh = some r := hr
    exact loadLoop_keyed _ _ fresh r hr' (fun hv => absurd rfl hv)
      (fun e he => absurd he (List.not_mem_nil e))

/-- A step of the loop from a keyed state, and a load that throws after a line was
stored. -/
theorem no_value_without_key_witness :
    (ReadState.mk TokenType.VAL [' '] ['k'] ['v']).keyed ∧
      ∃ r, load fresh (some "k=v\n=x".toList) = some r ∧
        keysNonEmpty r.parser.m_sections :=
  ⟨(no_value_without_key fresh []).2.2.1 ⟨TokenType.VAL, [' '], ['k'], []⟩
      ⟨TokenType.VAL, [' '], ['k'], ['v']⟩ false true false false true false 'v'
      (fun _ => by decide) rfl,
    (no_value_without_key fresh "k=v\n=x".toList).2.2.2.2.2.imp
      (fun _ h => ⟨h.1, h.2.2⟩)⟩

/-- C19. Text after a closing bracket is parsed as a new line: for every header
`[esc(s)]` (`s` non-empty, without tab, CR, FF, VT or newline) that starts a line and
every text `R`, `load` of the document in which `R` follows the closing bracket at once
gives the same result as `load` of the document with a newline between the bracket and
`R`; the document `[sec]k=v` stores `k = v` in the section `sec`. -/
theorem text_after_bracket_is_new_line (p0 : INIparser) (D1 s R : List Char)
    (hD1 : lineStart D1) (hs : s ≠ []) (hsc : ∀ c ∈ s, nameChar c) :
    load p0 (some (D1 ++ '[' :: (esc s ++ ']' :: R))) =
        load p0 (some (D1 ++ '[' :: (esc s ++ ']' :: '\n' :: R))) ∧
      load p0 (some "[sec]k=v".toList) =
        some { outcome := Except.ok (), parser :=
          { m_sections := [("sec".toList, [(['k'], ['v'])])],
            m_read_state := ⟨TokenType.KEY, "sec".toList, [], []⟩ } } := by
  have hline : ∀ (st : ReadState) (R' : List Char),
      readLine { rest := '[' :: (esc s ++ ']' :: R'), good := true } st =
        (Except.ok false,
          { current_token_type := TokenType.SECTION, sec := s, key := st.key, val := st.val },
          { rest := R', good := true }) := by
    intro st R'
    have h := readLine_header st [] s R' hs hsc (by simp)
    simpa using h
  constructor
  · rcases loadLoop_prefix D1 hD1 fresh rfl with ⟨r, k, hk⟩ | ⟨p1, k, _, hk⟩
    · exact load_congr p0 p0 _ _ (0 + k) (0 + k) r (hk _ 0) (hk _ 0)
    · obtain ⟨r, hr⟩ := loadLoop_total (R.length + 1) { rest := R, good := true }
        { p1 with m_read_state :=
            { current_token_type := TokenType.SECTION, sec := s,
              key := p1.m_read_state.key, val := p1.m_read_state.val } }
        (by simp [fstream.measure])
      refine load_congr p0 p0 _ _ (R.length + 1 + 1 + k) (R.length + 1 + 1 + 1 + k) r ?_ ?_
      · rw [hk, loadLoop_skip _ _ p1 _ _ rfl (hline _ R)]
        exact hr
      · rw [hk, loadLoop_skip _ _ p1 _ _ rfl (hline _ _),
          loadLoop_skip _ _ _ _ _ rfl (readLine_newline _ R)]
        rw [← hr]
        exact loadLoop_type _ { rest := R, good := true } _ TokenType.KEY rfl
  · apply load_of_loadLoop 10
    decide!

/-- The header `[a b]` followed at once by `k=v`, after a first line. -/
theorem text_after_bracket_is_new_line_witness :
    load fresh (some "x=1\n[a b]k=v\n".toList) = load fresh (some "x=1\n[a b]\nk=v\n".toList) :=
  (text_after_bracket_is_new_line fresh "x=1\n".toList "a b".toList "k=v\n".toList
    (Or.inr ⟨"x=1".toList, rfl⟩) (by decide) (by decide)).1

end INI
